import Mathlib

/-!
Formal model of the mav-dashboard harvest / load / join pipeline.

Each definition is a shallow embedding of one function of the repository
(file and line references are given at the definition).  Numeric code is
modelled over `ℚ` (exact arithmetic); random draws (`random.uniform`,
`random.random`) are passed in explicitly as unit-interval parameters.
-/

namespace MavDashboard

/-! ## Rate limiting and jitter
`src/scraper/bulk_scraper.py` (`_apply_variable_delay`, lines 106-129) and
`src/scraper/mav_scraper.py` (`_add_random_delay`, lines 80-84). -/

/-- Python `random.uniform a b` with the unit draw `u ∈ [0,1]` made explicit. -/
def uniformDraw (a b u : ℚ) : ℚ := a + u * (b - a)

/-- `BulkMAVScraper._apply_variable_delay(base_delay)`: returns the duration
slept.  `u` is the unit draw behind `random.uniform(min_delay, max_delay)`,
`p` the draw behind `random.random()`, `e` the unit draw behind
`random.uniform(2.0, 8.0)`.  The source returns immediately (no sleep) when
`base_delay <= 0`; otherwise it sleeps `uniform(0.5*base, 1.5*base)`, plus a
further `uniform(2, 8)` when `random.random() < 0.05`. -/
def apply_variable_delay (base_delay u p e : ℚ) : ℚ :=
  if base_delay ≤ 0 then 0
  else
    let min_delay := base_delay * (1/2)
    let max_delay := base_delay * (3/2)
    let delay := uniformDraw min_delay max_delay u
    if p < 1/20 then delay + uniformDraw 2 8 e else delay

/-- `MAVScraper._add_random_delay()` at its default arguments
(`min_seconds=0.5`, `max_seconds=2.0`), as called unconditionally by
`fetch_routes` before every HTTP request: the duration slept, with `u` the
unit draw behind `random.uniform`. -/
def add_random_delay (u : ℚ) : ℚ := uniformDraw (1/2) 2 u

/-- Sleeps performed during one `process_pair` attempt that reaches
`fetch_routes`: the pre-request delay inside `fetch_routes`
(`_add_random_delay`, unconditional), then the `finally`-block
inter-attempt delay (`_apply_variable_delay`). -/
def attemptSleeps (base_delay u p e uf : ℚ) : List ℚ :=
  [add_random_delay uf, apply_variable_delay base_delay u p e]

/-! ## Single HTTP offer-request call
`src/scraper/mav_scraper.py`, `MAVScraper.fetch_routes` (lines 145-270).
The body issues exactly one `session.post`; a 200 response with a decodable
JSON body returns `(True, data)`, every other status returns `(False, {})`,
and every raised exception (network error, timeout, JSON decode error)
returns `(False, {})`.  There is no retry loop. -/

/-- Outcome of one upstream HTTP exchange, as discriminated by
`fetch_routes`. -/
inductive HttpOutcome where
  | success (routesFound : ℕ)
  | httpError (code : ℕ)
  | transportError
  | decodeError
deriving DecidableEq, Repr

/-- `MAVScraper.fetch_routes`, as a function of the sequence of responses
the upstream would give to successive calls.  Returns (success flag, number
of HTTP calls issued).  The source performs a single `session.post` and
returns from every branch, so exactly the first upstream response is
consumed. -/
def fetch_routes (upstream : List HttpOutcome) : Bool × ℕ :=
  match upstream with
  | [] => (false, 1)
  | r :: _ =>
    (match r with
     | HttpOutcome.success _ => true
     | _ => false, 1)

/-! ## Orchestrator call protocol
`src/scraper/automated_scraper.py`, `AutomatedMAVScraper.run_daily_scraping`
(lines 70-206) and `src/scraper/bulk_scraper.py`,
`BulkMAVScraper.run_bulk_scraping` (lines 227-272). -/

/-- Keyword parameters accepted by `BulkMAVScraper.run_bulk_scraping`
(signature at bulk_scraper.py line 227:
`def run_bulk_scraping(self, max_pairs=None, base_delay_seconds=3.0)`). -/
def run_bulk_scraping_params : List String := ["max_pairs", "base_delay_seconds"]

/-- Keyword arguments passed by `run_daily_scraping` when upload is enabled
and `incremental_upload_interval > 0` (automated_scraper.py lines 142-147). -/
def incremental_upload_kwargs : List String :=
  ["max_pairs", "base_delay_seconds", "progress_callback", "progress_interval"]

/-- Python call semantics: a keyword call raises `TypeError` when some passed
keyword is not among the callee's parameter names; otherwise the call is
dispatched. -/
def call_run_bulk_scraping (kwargs : List String) : Except String Unit :=
  if kwargs.all (fun k => run_bulk_scraping_params.contains k) then Except.ok ()
  else Except.error "TypeError"

/-- Observable outcome of `run_daily_scraping`: either the surrounding
`except Exception` caught an error (the method returns `False`, no upload
step runs), or the run completed with `ipDuringRun` progress-callback
invocations of the incremental publisher and `finalUpload` recording whether
the end-of-run upload step executed. -/
inductive RunDailyResult where
  | aborted (err : String)
  | completed (ipDuringRun : ℕ) (finalUpload : Bool)
deriving DecidableEq, Repr

/-- `AutomatedMAVScraper.run_daily_scraping(upload, incremental_upload_interval)`:
with upload enabled and a positive interval it calls `run_bulk_scraping` with
the keyword arguments `progress_callback` / `progress_interval`
(automated_scraper.py lines 140-147); a `TypeError` from that call is caught
by the `except Exception` clause at line 198 and the method returns `False`
without reaching the final upload step.  In the remaining branch
`run_bulk_scraping(max_pairs, delay)` is called positionally; that function
contains no progress-callback invocation at all (bulk_scraper.py lines
227-272), and the final upload step then runs when upload is enabled. -/
def run_daily_scraping (upload : Bool) (incremental_upload_interval : ℕ) : RunDailyResult :=
  if upload ∧ 0 < incremental_upload_interval then
    match call_run_bulk_scraping incremental_upload_kwargs with
    | Except.error e => RunDailyResult.aborted e
    | Except.ok _ => RunDailyResult.completed 0 true
  else
    RunDailyResult.completed 0 upload

/-! ## Filenames and the bulk blob name pattern
`src/scraper/bulk_scraper.py` line 204 builds
`filename = f"bulk_{source_code}_{dest_code}_{timestamp}"`;
`src/scraper/json_saver.py` lines 49-58 write `{filename}.json` and
`{filename}_compact.json`.  `src/map_generator_refactored/loaders/bulk_loader.py`
line 344 admits blobs via
`re.match(r'bulk_(\d+)_(\d+)_(\d{8}_\d{6})\.json', filename)`. -/

/-- Maximal leading run of ASCII digits (the greedy `\d+` / `\d{n}` of the
`re` module; since every digit group of the pattern is followed by a
non-digit literal, greedy maximal-run matching is equivalent to the
backtracking semantics of `re.match` here). -/
def takeDigits : List Char → List Char × List Char
  | [] => ([], [])
  | c :: cs =>
    if c.isDigit then (c :: (takeDigits cs).1, (takeDigits cs).2)
    else ([], c :: cs)

/-- Consume an exact literal from the front; `none` when it does not fit. -/
def dropLit : List Char → List Char → Option (List Char)
  | [], cs => some cs
  | _, [] => none
  | l :: ls, c :: cs => if l = c then dropLit ls cs else none

/-- Whether `needle` occurs at the head of `hay`. -/
def startsList : List Char → List Char → Bool
  | [], _ => true
  | _ :: _, [] => false
  | n :: ns, c :: cs => n = c && startsList ns cs

/-- Whether `needle` occurs anywhere in `hay` (Python `needle in hay`). -/
def subList (needle : List Char) : List Char → Bool
  | [] => decide (needle = [])
  | c :: cs => startsList needle (c :: cs) || subList needle cs

/-- Python `'_compact' in name` (bulk_loader.py line 334). -/
def containsCompact (name : String) : Bool := subList "_compact".data name.data

/-- Python `name.endswith('.json')` (bulk_loader.py line 331). -/
def endsWithJson (name : String) : Bool :=
  startsList ".json".data.reverse name.data.reverse

/-- `re.match(r'bulk_(\d+)_(\d+)_(\d{8}_\d{6})\.json', filename)`
(bulk_loader.py line 344): anchored at the start of `filename` (Python
`re.match` semantics — trailing characters after `.json` are permitted),
returning the three captured groups `(start_station, end_station,
timestamp)` on success. -/
def bulkMatch (filename : String) : Option (String × String × String) :=
  match dropLit "bulk_".data filename.data with
  | none => none
  | some r1 =>
    if (takeDigits r1).1 = [] then none else
    match (takeDigits r1).2 with
    | '_' :: r3 =>
      if (takeDigits r3).1 = [] then none else
      match (takeDigits r3).2 with
      | '_' :: r5 =>
        if (takeDigits r5).1.length = 8 then
          match (takeDigits r5).2 with
          | '_' :: r7 =>
            if (takeDigits r7).1.length = 6 then
              match dropLit ".json".data (takeDigits r7).2 with
              | none => none
              | some _ =>
                some (⟨(takeDigits r1).1⟩, ⟨(takeDigits r3).1⟩,
                      ⟨(takeDigits r5).1 ++ '_' :: (takeDigits r7).1⟩)
            else none
          | _ => none
        else none
      | _ => none
    | _ => none

/-- Nonempty all-digit string (the shape of a station code such as
`"005510009"`, and of each regex group `\d+`). -/
def isDigits (s : String) : Bool := !s.data.isEmpty && s.data.all Char.isDigit

/-- Timestamp of shape `YYYYMMDD_HHMMSS` (8 digits, `'_'`, 6 digits), as
produced by `datetime.now().strftime("%Y%m%d_%H%M%S")` at
bulk_scraper.py line 203. -/
def validTs (ts : String) : Bool :=
  (takeDigits ts.data).1.length == 8 &&
    match (takeDigits ts.data).2 with
    | '_' :: r2 =>
      (takeDigits r2).1.length == 6 && decide ((takeDigits r2).2 = [])
    | _ => false

/-- Blob name written by a successful attempt: `bulk_<o>_<d>_<ts>.json`
(bulk_scraper.py line 204 together with json_saver.py line 50). -/
def bulkFileName (o d ts : String) : String :=
  "bulk_" ++ o ++ "_" ++ d ++ "_" ++ ts ++ ".json"

/-- Companion file written by the same attempt:
`bulk_<o>_<d>_<ts>_compact.json` (json_saver.py line 56). -/
def compactFileName (o d ts : String) : String :=
  "bulk_" ++ o ++ "_" ++ d ++ "_" ++ ts ++ "_compact.json"

/-- Local files produced by `BulkMAVScraper.process_pair` for one pair: when
`fetch_routes` reports success, `JSONSaver.scrape_and_save` writes the
pretty file and then the compact file (json_saver.py lines 49-58); a failing
fetch returns before any file is written (bulk_scraper.py lines 214-221). -/
def process_pair_files (o d ts : String) (fetchOk : Bool) : List String :=
  if fetchOk then [bulkFileName o d ts, compactFileName o d ts] else []

/-- One pair attempt of a bulk run: the resolved origin/destination codes,
the completion wall-clock timestamp, and whether the fetch succeeded. -/
structure PairAttempt where
  origin : String
  dest : String
  ts : String
  fetchOk : Bool

/-- Local files produced by `BulkMAVScraper.run_bulk_scraping` over its pair
loop (bulk_scraper.py lines 256-265): each listed pair is processed exactly
once, in order. -/
def run_bulk_scraping_files (attempts : List PairAttempt) : List String :=
  attempts.flatMap (fun a => process_pair_files a.origin a.dest a.ts a.fetchOk)

/-- Whether `name` is a bulk blob of the ordered pair `(o, d)`, as decided
by the loader's filename pattern. -/
def isBulkOf (o d : String) (name : String) : Bool :=
  match bulkMatch name with
  | some (o', d', _) => o' = o && d' = d
  | none => false

/-! ## Record model of a parsed bulk blob
`src/map_generator_refactored/loaders/bulk_loader.py` dataclasses (lines
25-89).  Only the fields consulted by the claim-relevant operations are
carried: the remaining dataclass fields (train names, schedule strings,
statistics, …) are never read by the loader pipeline, the delay-map builder
or the joiner. -/

/-- `RouteSegment` (one leg): its two delay fields, in minutes. -/
structure LegSeg where
  departure_delay : ℤ
  arrival_delay : ℤ
deriving DecidableEq, Repr

/-- `BulkRoute` (one itinerary): its ordered legs. -/
structure BulkRoute where
  route_segments : List LegSeg
deriving DecidableEq, Repr

/-- `BulkData` (one Observation): pair endpoints and itineraries. -/
structure BulkData where
  start_station : String
  end_station : String
  routes : List BulkRoute
deriving DecidableEq, Repr

/-! ## Day Loader
`BulkLoader.load_all_bulk_files_from_gcs` (bulk_loader.py lines 303-393). -/

/-- One object listed under a date's GCS prefix: its final filename
component and the result of `json.loads` + `parse_bulk_json_content`
(`none` models a JSON-decode or parse failure, which the source logs and
skips). -/
structure GcsBlob where
  name : String
  payload : Option (List BulkRoute)
deriving DecidableEq, Repr

/-- `[blob for blob in blobs if blob.name.endswith('.json')]`
(bulk_loader.py line 331). -/
def jsonFilter (blobs : List GcsBlob) : List GcsBlob :=
  blobs.filter (fun b => endsWithJson b.name)

/-- `[blob for blob in json_blobs if '_compact' not in blob.name]`
(bulk_loader.py line 334, `exclude_compact=True` default). -/
def compactFilter (blobs : List GcsBlob) : List GcsBlob :=
  blobs.filter (fun b => !containsCompact b.name)

/-- Python string `<`, lexicographic by code point, on the underlying
character lists (the comparison `timestamp > latest_blobs[key][0]` of
bulk_loader.py line 354). -/
def lexLt : List Char → List Char → Bool
  | [], [] => false
  | [], _ :: _ => true
  | _ :: _, [] => false
  | a :: as, b :: bs =>
    if a.toNat < b.toNat then true
    else if a.toNat = b.toNat then lexLt as bs
    else false

/-- Python `s < t` on strings. -/
def strLt (s t : String) : Bool := lexLt s.data t.data

/-- Python `s <= t` on strings (`¬ t < s`). -/
def strLe (s t : String) : Bool := !(strLt t s)

/-- Update of the `latest_blobs` dict for one matched blob (bulk_loader.py
lines 354-355): `if key not in latest_blobs or timestamp >
latest_blobs[key][0]: latest_blobs[key] = (timestamp, blob)`.  The dict is
modelled as an insertion-ordered association list, as Python preserves
insertion order. -/
def updateLatest : List ((String × String) × (String × GcsBlob)) →
    (String × String) → String → GcsBlob →
    List ((String × String) × (String × GcsBlob))
  | [], key, ts, b => [(key, (ts, b))]
  | (k0, (t0, b0)) :: rest, key, ts, b =>
    if k0 = key then
      if strLt t0 ts then (k0, (ts, b)) :: rest else (k0, (t0, b0)) :: rest
    else (k0, (t0, b0)) :: updateLatest rest key ts b

/-- Loop of bulk_loader.py lines 342-355: fold the blob list through the
filename pattern and the `latest_blobs` update; unmatched filenames are
skipped (`continue`). -/
def latestGo (acc : List ((String × String) × (String × GcsBlob))) :
    List GcsBlob → List ((String × String) × (String × GcsBlob))
  | [] => acc
  | b :: bs =>
    match bulkMatch b.name with
    | none => latestGo acc bs
    | some (o, d, ts) => latestGo (updateLatest acc (o, d) ts b) bs

/-- The `latest_blobs` dict built from a date's already-filtered blob
list. -/
def latestBlobs (blobs : List GcsBlob) : List ((String × String) × (String × GcsBlob)) :=
  latestGo [] blobs

/-- Full single-date pipeline (bulk_loader.py lines 330-385): filter to
`.json`, drop `_compact`, deduplicate to the latest blob per pair, then
parse each retained blob into a `BulkData` whose endpoints come from the
filename groups; parse failures are skipped. -/
def processDate (blobs : List GcsBlob) : List BulkData :=
  (latestBlobs (compactFilter (jsonFilter blobs))).filterMap
    (fun e =>
      match e.2.2.payload with
      | none => none
      | some routes => some ⟨e.1.1, e.1.2, routes⟩)

/-- Look-back loop body (bulk_loader.py lines 323-391): try the dates
`target - k` for each offset `k` in order; the first date whose pipeline
yields a non-empty `bulk_data` is returned with its data; when the offsets
are exhausted the source raises (`NoDataAvailable`). -/
def loadDaysGo (store : ℤ → List GcsBlob) (target : ℤ) :
    List ℕ → Except Unit (ℤ × List BulkData)
  | [] => Except.error ()
  | k :: rest =>
    let d := target - (k : ℤ)
    let data := processDate (store d)
    if data = [] then loadDaysGo store target rest
    else Except.ok (d, data)

/-- `BulkLoader.load_all_bulk_files_from_gcs(target_date, max_days_back)`:
`for days_back in range(max_days_back)` (bulk_loader.py line 323).  The
object store is modelled as a map from day number to that date's blob
listing. -/
def load_all_bulk_files_from_gcs (store : ℤ → List GcsBlob) (target : ℤ)
    (max_days_back : ℕ) : Except Unit (ℤ × List BulkData) :=
  loadDaysGo store target (List.range max_days_back)

/-- First-match association-list lookup: access into the insertion-ordered
dict model (Python `dict[k]`). -/
def alookup {β : Type} (k : String × String) :
    List ((String × String) × β) → Option β
  | [] => none
  | (k0, v) :: rest => if k0 = k then some v else alookup k rest

/-- Per-key trace of the `latest_blobs` update sequence of bulk_loader.py
lines 342-355: the running latest `(timestamp, blob)` value for the single
key `k` while scanning the blob list.  Verification device for reasoning
about `latestGo` one key at a time. -/
def runLatest (k : String × String) (cur : Option (String × GcsBlob)) :
    List GcsBlob → Option (String × GcsBlob)
  | [] => cur
  | b :: bs =>
    match bulkMatch b.name with
    | none => runLatest k cur bs
    | some (o, d, ts) =>
      if (o, d) = k then
        runLatest k
          (match cur with
           | none => some (ts, b)
           | some (t0, b0) => if strLt t0 ts then some (ts, b) else some (t0, b0)) bs
      else runLatest k cur bs

/-! ## Per-pair day summary
`src/dashboard/loaders/data_joiner.py`, `DataJoiner.create_station_delay_map`
(lines 55-94); `create_station_max_delay_map` of
`src/map_generator_refactored/visualizers/max_delay_map_visualizer.py`
(lines 94-120) computes the same three aggregates. -/

/-- Python `max(l)` with the source's guard `max(l) if l else 0`. -/
def pyMax : List ℤ → ℤ
  | [] => 0
  | x :: xs => xs.foldl max x

/-- `np.mean(l) if l else 0.0`, over exact rationals. -/
def pyMeanZ (l : List ℤ) : ℚ :=
  if l = [] then 0 else (l.map (fun z => (z : ℚ))).sum / l.length

/-- Delay samples collected for one pair (data_joiner.py lines 74-78): for
every route, for every segment, append `departure_delay` then
`arrival_delay`. -/
def collectDelays (bd : BulkData) : List ℤ :=
  bd.routes.flatMap (fun r =>
    r.route_segments.flatMap (fun s => [s.departure_delay, s.arrival_delay]))

/-- The three delay aggregates of `StationPairDelay` that the claims
consult. -/
structure StationPairDelay where
  average_delay : ℚ
  max_delay : ℤ
  sample_count : ℕ
deriving DecidableEq, Repr

/-- `delays = [d for d in delays if d > 0]` (data_joiner.py line 81): the
strictly positive delay samples of one pair. -/
def positiveDelays (bd : BulkData) : List ℤ :=
  (collectDelays bd).filter (fun dl => decide (0 < dl))

/-- Per-pair summary computation (data_joiner.py lines 80-92): mean, max and
count over the strictly positive samples. -/
def stationDelayEntry (bd : BulkData) : StationPairDelay :=
  { average_delay := pyMeanZ (positiveDelays bd)
    max_delay := pyMax (positiveDelays bd)
    sample_count := (positiveDelays bd).length }

/-- Python dict assignment `dict[k] = v`: replace the value at the first
occurrence of `k`, else append. -/
def pyDictInsert {α β : Type} [DecidableEq α] :
    List (α × β) → α → β → List (α × β)
  | [], k, v => [(k, v)]
  | (k0, v0) :: rest, k, v =>
    if k0 = k then (k, v) :: rest else (k0, v0) :: pyDictInsert rest k v

/-- `DataJoiner.create_station_delay_map(bulk_data_list)` (lines 55-94):
one dict entry per listed `BulkData`, keyed by its pair. -/
def create_station_delay_map (l : List BulkData) :
    List ((String × String) × StationPairDelay) :=
  l.foldl (fun acc bd =>
    pyDictInsert acc (bd.start_station, bd.end_station) (stationDelayEntry bd)) []

/-! ## Pattern matching and segment projection
`DataJoiner.find_route_segments_for_stations` (data_joiner.py lines 96-126)
and `MaxDelayRouteMap.add_max_delay_routes`
(map_generator_refactored/visualizers/max_delay_map_visualizer.py lines
250-278). -/

/-- A RouteGraph pattern, reduced to its ordered station identifiers
(`[stop.pure_id for stop in pattern.stops]`, data_joiner.py line 114). -/
structure GPattern where
  stops : List String
deriving DecidableEq, Repr

/-- A route: its patterns. -/
structure GRoute where
  patterns : List GPattern
deriving DecidableEq, Repr

/-- `[i for i, sid in enumerate(station_ids) if sid == target]`
(data_joiner.py lines 117-118). -/
def occurrenceIdxs (station_ids : List String) (target : String) : List ℕ :=
  ((station_ids.enum).filter (fun p => p.2 == target)).map Prod.fst

/-- Per-pattern occurrence matching (data_joiner.py lines 114-124): every
`(start_idx, end_idx)` combination with `end_idx > start_idx`, enumerated
with `start_idx` outer and `end_idx` inner, both ascending. -/
def find_route_segments_core (station_ids : List String)
    (start_id end_id : String) : List (ℕ × ℕ) :=
  let start_indices := occurrenceIdxs station_ids start_id
  let end_indices := occurrenceIdxs station_ids end_id
  start_indices.flatMap (fun i =>
    (end_indices.filter (fun j => decide (i < j))).map (fun j => (i, j)))

/-- `DataJoiner.find_route_segments_for_stations(routes, start_id, end_id)`
(lines 96-126): all `(pattern, start_idx, end_idx)` matches over every
pattern of every route. -/
def find_route_segments_for_stations (routes : List GRoute)
    (start_id end_id : String) : List (GPattern × ℕ × ℕ) :=
  routes.flatMap (fun r =>
    r.patterns.flatMap (fun p =>
      (find_route_segments_core p.stops start_id end_id).map
        (fun ij => (p, ij.1, ij.2))))

/-- The two per-pair aggregates consumed by `add_max_delay_routes`
(`delay_info['max_delay']`, `delay_info['average_delay']`). -/
structure MaxDelayInfo where
  max_delay : ℤ
  average_delay : ℚ
deriving DecidableEq, Repr

/-- Append one contribution to the dict-of-lists pair
(`segment_max_delays[key].append(...)`, `segment_avg_delays[key].append(...)`,
max_delay_map_visualizer.py lines 268-273), both dicts modelled together as
one insertion-ordered association list. -/
def appendContrib : List ((String × String) × (List ℤ × List ℚ)) →
    (String × String) → ℤ → ℚ → List ((String × String) × (List ℤ × List ℚ))
  | [], k, m, a => [(k, ([m], [a]))]
  | (k0, (ms, avs)) :: rest, k, m, a =>
    if k0 = k then (k0, (ms ++ [m], avs ++ [a])) :: rest
    else (k0, (ms, avs)) :: appendContrib rest k m a

/-- Contribution-collection loops of `add_max_delay_routes` (lines 258-273):
for each `(pair, delay_info)`, for each covering match
`(pattern, start_idx, end_idx)`, for each `i in range(start_idx, end_idx)`,
append the pair's `max_delay` and `average_delay` at the segment key
`(stops[i], stops[i+1])`.  Indexing is total in the source because
`end_idx` is an in-range occurrence index; `getD` with a default mirrors
that totality. -/
def segmentContribs (routes : List GRoute)
    (station_max_delays : List ((String × String) × MaxDelayInfo)) :
    List ((String × String) × (List ℤ × List ℚ)) :=
  station_max_delays.foldl (fun acc pd =>
    (find_route_segments_for_stations routes pd.1.1 pd.1.2).foldl (fun acc2 m =>
      (List.range' m.2.1 (m.2.2 - m.2.1)).foldl (fun acc3 i =>
        appendContrib acc3 (m.1.stops.getD i "", m.1.stops.getD (i + 1) "")
          pd.2.max_delay pd.2.average_delay) acc2) acc) []

/-- `np.mean` of a contribution list (nonempty whenever the key exists),
over exact rationals. -/
def qMean (l : List ℚ) : ℚ := l.sum / l.length

/-- Final aggregation of `add_max_delay_routes` (lines 276-278):
`segment_max_delays[key] = max(...)`, `segment_avg_delays[key] = np.mean(...)`. -/
def add_max_delay_routes_agg (routes : List GRoute)
    (station_max_delays : List ((String × String) × MaxDelayInfo)) :
    List ((String × String) × (ℤ × ℚ)) :=
  (segmentContribs routes station_max_delays).map
    (fun e => (e.1, (pyMax e.2.1, qMean e.2.2)))

/-! ## THEOREMS -/

/-- C9 counterexample: in a run with `base_delay = 0` a sleep is still
performed: `fetch_routes` sleeps `_add_random_delay` (uniform `[0.5, 2.0]`,
here the draw `u = 0` giving `0.5` s) before every HTTP request, so the
total slept during the attempt is `1/2`, not `0`. -/
theorem mav_C9_counterexample :
    (attemptSleeps 0 0 1 0 0).sum = 1/2 ∧ ¬ ((attemptSleeps 0 0 1 0 0).sum = 0) := by
  constructor
  · norm_num [attemptSleeps, add_random_delay, apply_variable_delay, uniformDraw]
  · norm_num [attemptSleeps, add_random_delay, apply_variable_delay, uniformDraw]

/-- C9 (amended): the inter-attempt variable delay is drawn uniformly from
`[0.5*base, 1.5*base]`, with probability `0.05` increased by a further
uniform draw from `[2, 8]`; with `base_delay ≤ 0` the variable delay is
skipped entirely — but every fetch still sleeps a uniform `[0.5, 2.0]`
seconds before its HTTP request, so a run with `base_delay ≤ 0` is not
sleep-free. -/
theorem mav_C9_amended (b u p e uf : ℚ)
    (hu : 0 ≤ u ∧ u ≤ 1) (he : 0 ≤ e ∧ e ≤ 1) (huf : 0 ≤ uf ∧ uf ≤ 1) :
    (b ≤ 0 → apply_variable_delay b u p e = 0) ∧
    (0 < b → ¬ (p < 1/20) →
       b * (1/2) ≤ apply_variable_delay b u p e ∧
       apply_variable_delay b u p e ≤ b * (3/2)) ∧
    (0 < b → p < 1/20 →
       b * (1/2) + 2 ≤ apply_variable_delay b u p e ∧
       apply_variable_delay b u p e ≤ b * (3/2) + 8) ∧
    (1/2 ≤ add_random_delay uf ∧ add_random_delay uf ≤ 2) := by
  obtain ⟨hu0, hu1⟩ := hu
  obtain ⟨he0, he1⟩ := he
  obtain ⟨huf0, huf1⟩ := huf
  refine ⟨fun hb => ?_, fun hb hp => ?_, fun hb hp => ?_, ?_, ?_⟩
  · simp [apply_variable_delay, hb]
  · have hb' : ¬ (b ≤ 0) := not_le.mpr hb
    simp only [apply_variable_delay, uniformDraw, if_neg hb', if_neg hp]
    constructor
    · nlinarith
    · nlinarith
  · have hb' : ¬ (b ≤ 0) := not_le.mpr hb
    simp only [apply_variable_delay, uniformDraw, if_neg hb', if_pos hp]
    constructor
    · nlinarith
    · nlinarith
  · simp only [add_random_delay, uniformDraw]
    nlinarith
  · simp only [add_random_delay, uniformDraw]
    nlinarith

/-- C9 amended witness at `b = 3`, `u = 1/2`, `p = 1`, `e = 0`, `uf = 0`. -/
theorem mav_C9_amended_witness :
    ((3:ℚ) ≤ 0 → apply_variable_delay 3 (1/2) 1 0 = 0) ∧
    (0 < (3:ℚ) → ¬ ((1:ℚ) < 1/20) →
       (3:ℚ) * (1/2) ≤ apply_variable_delay 3 (1/2) 1 0 ∧
       apply_variable_delay 3 (1/2) 1 0 ≤ 3 * (3/2)) ∧
    (0 < (3:ℚ) → (1:ℚ) < 1/20 →
       (3:ℚ) * (1/2) + 2 ≤ apply_variable_delay 3 (1/2) 1 0 ∧
       apply_variable_delay 3 (1/2) 1 0 ≤ 3 * (3/2) + 8) ∧
    (1/2 ≤ add_random_delay 0 ∧ add_random_delay 0 ≤ 2) :=
  mav_C9_amended 3 (1/2) 1 0 0 (by norm_num) (by norm_num) (by norm_num)

/-- C2 counterexample: when the upstream would answer HTTP 503, HTTP 503,
then 200 with a valid payload, the attempt does not succeed — `fetch_routes`
issues exactly one HTTP call, sees the first 503 and reports failure; no
retry happens. -/
theorem mav_C2_counterexample :
    fetch_routes [HttpOutcome.httpError 503, HttpOutcome.httpError 503,
                  HttpOutcome.success 1] = (false, 1) := by
  rfl

/-- C2 (amended): `fetch_routes` performs exactly one HTTP call per
invocation with no retries at all; the attempt succeeds precisely when that
single exchange yields HTTP 200 with a decodable payload, and every
transport error, non-200 status (5xx included) and payload-decode error
fails the attempt immediately.  In particular the 503/503/200 scenario
fails. -/
theorem mav_C2_amended (upstream : List HttpOutcome) :
    (fetch_routes upstream).2 = 1 ∧
    ((fetch_routes upstream).1 = true ↔
       ∃ n, upstream.head? = some (HttpOutcome.success n)) := by
  constructor
  · cases upstream with
    | nil => rfl
    | cons r rest => cases r <;> rfl
  · cases upstream with
    | nil => simp [fetch_routes]
    | cons r rest => cases r <;> simp [fetch_routes]

/-- C5: with upload enabled and `incremental_upload_interval = 100`,
`run_daily_scraping` passes the keyword arguments `progress_callback` and
`progress_interval` to `run_bulk_scraping`, whose signature accepts neither;
the resulting `TypeError` is caught by the blanket `except Exception`
handler and the run aborts having invoked the incremental publisher zero
times — it is not invoked at processed-counts 100 or 200, nor at
completion. -/
theorem mav_C5_code_bug :
    run_daily_scraping true 100 = RunDailyResult.aborted "TypeError" ∧
    run_bulk_scraping_params.contains "progress_callback" = false ∧
    incremental_upload_kwargs.contains "progress_callback" = true := by
  refine ⟨?_, by decide, by decide⟩
  rfl

/-! ### Supporting lemmas for the filename machinery -/

theorem sdata_append (s t : String) : (s ++ t).data = s.data ++ t.data := by
  cases s; cases t; rfl

theorem dropLit_append (l cs : List Char) : dropLit l (l ++ cs) = some cs := by
  induction l with
  | nil => simp [dropLit]
  | cons c l ih => simp [dropLit, ih]

theorem dropLit_refl (l : List Char) : dropLit l l = some [] := by
  have h := dropLit_append l []
  simpa using h

theorem takeDigits_spec (cs : List Char) :
    (takeDigits cs).1 ++ (takeDigits cs).2 = cs ∧
    (∀ c ∈ (takeDigits cs).1, c.isDigit = true) ∧
    (∀ c, (takeDigits cs).2.head? = some c → c.isDigit = false) := by
  induction cs with
  | nil => simp [takeDigits]
  | cons c cs ih =>
    by_cases h : c.isDigit
    · simp only [takeDigits, h, if_true]
      refine ⟨by simp [ih.1], ?_, ih.2.2⟩
      intro x hx
      rcases List.mem_cons.mp hx with rfl | hx
      · exact h
      · exact ih.2.1 x hx
    · have h' : c.isDigit = false := by simpa using h
      simp only [takeDigits, h', Bool.false_eq_true, if_false]
      refine ⟨rfl, by simp, ?_⟩
      intro x hx
      simp only [List.head?_cons, Option.some_inj] at hx
      subst hx
      exact h'

theorem takeDigits_of_append (l r : List Char)
    (hl : ∀ c ∈ l, c.isDigit = true)
    (hr : ∀ c, r.head? = some c → c.isDigit = false) :
    takeDigits (l ++ r) = (l, r) := by
  induction l with
  | nil =>
    cases r with
    | nil => rfl
    | cons c cs =>
      have hc := hr c rfl
      simp [takeDigits, hc]
  | cons c l ih =>
    have hc : c.isDigit = true := hl c (by simp)
    have ih' := ih (fun x hx => hl x (by simp [hx]))
    simp [takeDigits, hc, ih']

theorem isDigits_parts (s : String) (h : isDigits s = true) :
    s.data ≠ [] ∧ ∀ c ∈ s.data, c.isDigit = true := by
  unfold isDigits at h
  rw [Bool.and_eq_true] at h
  refine ⟨?_, ?_⟩
  · intro hempty
    rw [hempty] at h
    simp at h
  · intro c hc
    have := h.2
    rw [List.all_eq_true] at this
    exact this c hc

theorem validTs_parts (ts : String) (h : validTs ts = true) :
    ∃ t1 t2 : List Char, ts.data = t1 ++ '_' :: t2 ∧ t1.length = 8 ∧ t2.length = 6 ∧
      (∀ c ∈ t1, c.isDigit = true) ∧ (∀ c ∈ t2, c.isDigit = true) := by
  have hspec := takeDigits_spec ts.data
  unfold validTs at h
  rw [Bool.and_eq_true] at h
  obtain ⟨h8, hrest⟩ := h
  split at hrest
  case _ r2 hr =>
    simp only [Bool.and_eq_true] at hrest
    have hspec2 := takeDigits_spec r2
    refine ⟨(takeDigits ts.data).1, (takeDigits r2).1, ?_, ?_, ?_, ?_, ?_⟩
    · have h1 := hspec.1
      rw [hr] at h1
      have h2 := hspec2.1
      have h3 : (takeDigits r2).2 = [] := by
        have := hrest.2
        simpa using this
      rw [h3, List.append_nil] at h2
      rw [h2]
      exact h1.symm
    · simpa using h8
    · have := hrest.1
      simpa using this
    · exact hspec.2.1
    · exact hspec2.2.1
  case _ => simp at hrest

theorem data_bulkFileName (o d ts : String) :
    (bulkFileName o d ts).data =
      "bulk_".data ++ (o.data ++ ('_' :: (d.data ++ ('_' :: (ts.data ++ ".json".data))))) := by
  have h1 : "_".data = ['_'] := rfl
  simp [bulkFileName, sdata_append, h1, List.append_assoc]

theorem data_compactFileName (o d ts : String) :
    (compactFileName o d ts).data =
      "bulk_".data ++ (o.data ++ ('_' :: (d.data ++ ('_' :: (ts.data ++ "_compact.json".data))))) := by
  have h1 : "_".data = ['_'] := rfl
  simp [compactFileName, sdata_append, h1, List.append_assoc]

theorem head_underscore (r : List Char) :
    ∀ c, (('_' :: r).head? = some c) → c.isDigit = false := by
  intro c hc
  simp only [List.head?_cons, Option.some_inj] at hc
  subst hc
  decide

theorem bulkMatch_bulkFileName (o d ts : String) (ho : isDigits o = true)
    (hd : isDigits d = true) (hts : validTs ts = true) :
    bulkMatch (bulkFileName o d ts) = some (o, d, ts) := by
  obtain ⟨hone, hod⟩ := isDigits_parts o ho
  obtain ⟨hdne, hdd⟩ := isDigits_parts d hd
  obtain ⟨t1, t2, hts_eq, h8, h6, ht1, ht2⟩ := validTs_parts ts hts
  have hdata : (bulkFileName o d ts).data =
      "bulk_".data ++ (o.data ++ ('_' :: (d.data ++ ('_' ::
        (t1 ++ ('_' :: (t2 ++ ".json".data))))))) := by
    rw [data_bulkFileName, hts_eq]
    simp [List.append_assoc]
  have e1 : takeDigits (o.data ++ ('_' :: (d.data ++ ('_' ::
        (t1 ++ ('_' :: (t2 ++ ".json".data)))))))
      = (o.data, '_' :: (d.data ++ ('_' :: (t1 ++ ('_' :: (t2 ++ ".json".data)))))) :=
    takeDigits_of_append _ _ hod (head_underscore _)
  have e2 : takeDigits (d.data ++ ('_' :: (t1 ++ ('_' :: (t2 ++ ".json".data)))))
      = (d.data, '_' :: (t1 ++ ('_' :: (t2 ++ ".json".data)))) :=
    takeDigits_of_append _ _ hdd (head_underscore _)
  have e3 : takeDigits (t1 ++ ('_' :: (t2 ++ ".json".data)))
      = (t1, '_' :: (t2 ++ ".json".data)) :=
    takeDigits_of_append _ _ ht1 (head_underscore _)
  have e4 : takeDigits (t2 ++ ".json".data) = (t2, ".json".data) := by
    refine takeDigits_of_append _ _ ht2 ?_
    intro c hc
    have hh : (".json".data).head? = some '.' := rfl
    rw [hh, Option.some_inj] at hc
    subst hc
    decide
  have e5 : dropLit ".json".data ".json".data = some [] := dropLit_refl _
  simp only [bulkMatch, hdata, dropLit_append, e1, e2, e3, e4, e5, h8, h6]
  simp only [hone, hdne, if_false, ite_false, reduceIte]
  rw [← hts_eq]

theorem bulkMatch_compactFileName (o d ts : String) (ho : isDigits o = true)
    (hd : isDigits d = true) (hts : validTs ts = true) :
    bulkMatch (compactFileName o d ts) = none := by
  obtain ⟨hone, hod⟩ := isDigits_parts o ho
  obtain ⟨hdne, hdd⟩ := isDigits_parts d hd
  obtain ⟨t1, t2, hts_eq, h8, h6, ht1, ht2⟩ := validTs_parts ts hts
  have hdata : (compactFileName o d ts).data =
      "bulk_".data ++ (o.data ++ ('_' :: (d.data ++ ('_' ::
        (t1 ++ ('_' :: (t2 ++ "_compact.json".data))))))) := by
    rw [data_compactFileName, hts_eq]
    simp [List.append_assoc]
  have e1 : takeDigits (o.data ++ ('_' :: (d.data ++ ('_' ::
        (t1 ++ ('_' :: (t2 ++ "_compact.json".data)))))))
      = (o.data, '_' :: (d.data ++ ('_' :: (t1 ++ ('_' :: (t2 ++ "_compact.json".data)))))) :=
    takeDigits_of_append _ _ hod (head_underscore _)
  have e2 : takeDigits (d.data ++ ('_' :: (t1 ++ ('_' :: (t2 ++ "_compact.json".data)))))
      = (d.data, '_' :: (t1 ++ ('_' :: (t2 ++ "_compact.json".data)))) :=
    takeDigits_of_append _ _ hdd (head_underscore _)
  have e3 : takeDigits (t1 ++ ('_' :: (t2 ++ "_compact.json".data)))
      = (t1, '_' :: (t2 ++ "_compact.json".data)) :=
    takeDigits_of_append _ _ ht1 (head_underscore _)
  have e4 : takeDigits (t2 ++ "_compact.json".data) = (t2, "_compact.json".data) := by
    refine takeDigits_of_append _ _ ht2 ?_
    intro c hc
    have hh : ("_compact.json".data).head? = some '_' := rfl
    rw [hh, Option.some_inj] at hc
    subst hc
    decide
  have e5 : dropLit ".json".data "_compact.json".data = none := rfl
  simp only [bulkMatch, hdata, dropLit_append, e1, e2, e3, e4, e5, h8, h6]
  simp only [hone, hdne, if_false, ite_false, reduceIte]

theorem countP_process_pair (o d : String) (a : PairAttempt)
    (ha : isDigits a.origin = true ∧ isDigits a.dest = true ∧ validTs a.ts = true) :
    (process_pair_files a.origin a.dest a.ts a.fetchOk).countP (fun n => isBulkOf o d n) =
      if a.fetchOk = true ∧ a.origin = o ∧ a.dest = d then 1 else 0 := by
  obtain ⟨h1, h2, h3⟩ := ha
  have hb : isBulkOf o d (bulkFileName a.origin a.dest a.ts)
      = (decide (a.origin = o) && decide (a.dest = d)) := by
    unfold isBulkOf
    rw [bulkMatch_bulkFileName _ _ _ h1 h2 h3]
  have hc : isBulkOf o d (compactFileName a.origin a.dest a.ts) = false := by
    unfold isBulkOf
    rw [bulkMatch_compactFileName _ _ _ h1 h2 h3]
  cases hf : a.fetchOk with
  | false => simp [process_pair_files]
  | true =>
    simp only [process_pair_files, if_true, List.countP_cons, List.countP_nil, hb, hc]
    by_cases ho : a.origin = o
    · by_cases hd : a.dest = d
      · simp [ho, hd]
      · simp [ho, hd]
    · simp [ho]

theorem countP_run (attempts : List PairAttempt) (o d : String)
    (hall : ∀ a ∈ attempts,
      isDigits a.origin = true ∧ isDigits a.dest = true ∧ validTs a.ts = true) :
    (run_bulk_scraping_files attempts).countP (fun n => isBulkOf o d n) =
      attempts.countP (fun a => decide (a.fetchOk = true ∧ a.origin = o ∧ a.dest = d)) := by
  induction attempts with
  | nil => rfl
  | cons a as ih =>
    have ha := hall a (by simp)
    have ih' := ih (fun x hx => hall x (by simp [hx]))
    rw [show run_bulk_scraping_files (a :: as)
        = process_pair_files a.origin a.dest a.ts a.fetchOk ++ run_bulk_scraping_files as
      from rfl]
    rw [List.countP_append, countP_process_pair o d a ha, ih', List.countP_cons]
    simp [decide_eq_true_eq, Nat.add_comm]

/-- C1: a successful pair attempt produces exactly one local blob carrying
the `bulk_<origin>_<dest>_<YYYYMMDD_HHMMSS>.json` name of its pair (the
companion `_compact` file does not match that pattern), a failing attempt
produces no file at all, and — since the run loop processes each listed
pair exactly once — a run whose pair list mentions the pair `(o, d)` at
most once yields at most one such blob for `(o, d)`. -/
theorem mav_C1 (attempts : List PairAttempt) (o d : String)
    (hall : ∀ a ∈ attempts,
      isDigits a.origin = true ∧ isDigits a.dest = true ∧ validTs a.ts = true)
    (honce : attempts.countP (fun a => decide (a.origin = o ∧ a.dest = d)) ≤ 1) :
    (∀ a ∈ attempts, a.fetchOk = true →
        (process_pair_files a.origin a.dest a.ts a.fetchOk).countP
            (fun n => isBulkOf a.origin a.dest n) = 1 ∧
        bulkFileName a.origin a.dest a.ts ∈
          process_pair_files a.origin a.dest a.ts a.fetchOk) ∧
    (∀ a ∈ attempts, a.fetchOk = false →
        process_pair_files a.origin a.dest a.ts a.fetchOk = []) ∧
    (run_bulk_scraping_files attempts).countP (fun n => isBulkOf o d n) ≤ 1 := by
  refine ⟨?_, ?_, ?_⟩
  · intro a ha hf
    constructor
    · rw [countP_process_pair a.origin a.dest a (hall a ha)]
      simp [hf]
    · simp [process_pair_files, hf]
  · intro a _ hf
    simp [process_pair_files, hf]
  · rw [countP_run attempts o d hall]
    refine le_trans (List.countP_mono_left ?_) honce
    intro a _ h
    simp only [decide_eq_true_eq] at h ⊢
    exact ⟨h.2.1, h.2.2⟩

/-- C1 witness: a one-pair run with a successful fetch. -/
theorem mav_C1_witness :
    (∀ a ∈ [PairAttempt.mk "005510009" "005504747" "20250801_080000" true],
        a.fetchOk = true →
        (process_pair_files a.origin a.dest a.ts a.fetchOk).countP
            (fun n => isBulkOf a.origin a.dest n) = 1 ∧
        bulkFileName a.origin a.dest a.ts ∈
          process_pair_files a.origin a.dest a.ts a.fetchOk) ∧
    (∀ a ∈ [PairAttempt.mk "005510009" "005504747" "20250801_080000" true],
        a.fetchOk = false →
        process_pair_files a.origin a.dest a.ts a.fetchOk = []) ∧
    (run_bulk_scraping_files
        [PairAttempt.mk "005510009" "005504747" "20250801_080000" true]).countP
      (fun n => isBulkOf "005510009" "005504747" n) ≤ 1 :=
  mav_C1 [PairAttempt.mk "005510009" "005504747" "20250801_080000" true]
    "005510009" "005504747" (by decide) (by decide)

theorem startsList_refl_append (n post : List Char) : startsList n (n ++ post) = true := by
  induction n with
  | nil => rfl
  | cons c n ih => simp [startsList, ih]

theorem subList_base (n post : List Char) : subList n (n ++ post) = true := by
  cases hn : n ++ post with
  | nil =>
    have : n = [] := by
      rcases List.append_eq_nil.mp hn with ⟨h, _⟩
      exact h
    simp [subList, this]
  | cons c cs =>
    rw [subList, ← hn, startsList_refl_append]
    simp

theorem subList_cons (n : List Char) (c : Char) (l : List Char)
    (h : subList n l = true) : subList n (c :: l) = true := by
  simp [subList, h]

theorem subList_append_left (n x l : List Char) (h : subList n l = true) :
    subList n (x ++ l) = true := by
  induction x with
  | nil => simpa using h
  | cons c x ih => simpa using subList_cons n c (x ++ l) ih

theorem containsCompact_compactFileName (o d ts : String) :
    containsCompact (compactFileName o d ts) = true := by
  unfold containsCompact
  rw [data_compactFileName]
  have hsplit : "_compact.json".data = "_compact".data ++ ".json".data := rfl
  rw [hsplit]
  apply subList_append_left
  apply subList_append_left
  apply subList_cons
  apply subList_append_left
  apply subList_cons
  apply subList_append_left
  exact subList_base _ _

theorem updateLatest_mem (acc : List ((String × String) × (String × GcsBlob)))
    (k : String × String) (ts : String) (b : GcsBlob) :
    ∀ e ∈ updateLatest acc k ts b, e ∈ acc ∨ e = (k, (ts, b)) := by
  induction acc with
  | nil =>
    intro e he
    simp only [updateLatest, List.mem_singleton] at he
    exact Or.inr he
  | cons hd tl ih =>
    obtain ⟨k0, t0, b0⟩ := hd
    intro e he
    simp only [updateLatest] at he
    by_cases hk : k0 = k
    · rw [if_pos hk] at he
      by_cases ht : strLt t0 ts = true
      · rw [if_pos ht] at he
        rcases List.mem_cons.mp he with rfl | he
        · exact Or.inr (by rw [hk])
        · exact Or.inl (List.mem_cons_of_mem _ he)
      · rw [if_neg ht] at he
        rcases List.mem_cons.mp he with rfl | he
        · exact Or.inl (List.mem_cons_self _ _)
        · exact Or.inl (List.mem_cons_of_mem _ he)
    · rw [if_neg hk] at he
      rcases List.mem_cons.mp he with rfl | he
      · exact Or.inl (List.mem_cons_self _ _)
      · rcases ih e he with h | h
        · exact Or.inl (List.mem_cons_of_mem _ h)
        · exact Or.inr h

theorem latestGo_mem (bs : List GcsBlob) :
    ∀ (acc : List ((String × String) × (String × GcsBlob))) (e),
      e ∈ latestGo acc bs →
      e ∈ acc ∨ (e.2.2 ∈ bs ∧ bulkMatch e.2.2.name = some (e.1.1, e.1.2, e.2.1)) := by
  induction bs with
  | nil =>
    intro acc e he
    exact Or.inl he
  | cons b bs ih =>
    intro acc e he
    rw [latestGo] at he
    split at he
    · rcases ih _ _ he with h | h
      · exact Or.inl h
      · exact Or.inr ⟨List.mem_cons_of_mem _ h.1, h.2⟩
    · rename_i o d ts hm
      rcases ih _ _ he with h | h
      · rcases updateLatest_mem _ _ _ _ _ h with h' | h'
        · exact Or.inl h'
        · subst h'
          exact Or.inr ⟨List.mem_cons_self _ _, by simpa using hm⟩
      · exact Or.inr ⟨List.mem_cons_of_mem _ h.1, h.2⟩

/-- C10: a successful attempt writes a second local file named
`<base>_compact.json` next to `<base>.json`, and the Day Loader's GCS load
never admits such a file: names containing `_compact` are filtered out
before deduplication, and every blob retained by the deduplication step has
a name matched by the `bulk_(\d+)_(\d+)_(\d{8}_\d{6})\.json` pattern. -/
theorem mav_C10 (o d ts : String) (blobs : List GcsBlob) :
    (∃ base, process_pair_files o d ts true = [base ++ ".json", base ++ "_compact.json"]) ∧
    (∀ b ∈ compactFilter (jsonFilter blobs), b.name ≠ compactFileName o d ts) ∧
    (∀ e ∈ latestBlobs (compactFilter (jsonFilter blobs)),
        (bulkMatch e.2.2.name).isSome = true ∧ containsCompact e.2.2.name = false) := by
  refine ⟨⟨"bulk_" ++ o ++ "_" ++ d ++ "_" ++ ts, rfl⟩, ?_, ?_⟩
  · intro b hb heq
    have h1 : containsCompact b.name = false := by
      have h := (List.mem_filter.mp hb).2
      simpa using h
    rw [heq, containsCompact_compactFileName o d ts] at h1
    cases h1
  · intro e he
    rcases latestGo_mem _ _ _ he with h | h
    · cases h
    · refine ⟨by rw [h.2]; rfl, ?_⟩
      have hb := (List.mem_filter.mp h.1).2
      simpa using hb

/-- C10 witness at a concrete pair, timestamp and two-blob listing. -/
theorem mav_C10_witness :
    (∃ base, process_pair_files "1" "2" "20250101_123456" true
        = [base ++ ".json", base ++ "_compact.json"]) ∧
    (∀ b ∈ compactFilter (jsonFilter
        [GcsBlob.mk "bulk_1_2_20250101_123456.json" (some []),
         GcsBlob.mk "bulk_1_2_20250101_123456_compact.json" (some [])]),
        b.name ≠ compactFileName "1" "2" "20250101_123456") ∧
    (∀ e ∈ latestBlobs (compactFilter (jsonFilter
        [GcsBlob.mk "bulk_1_2_20250101_123456.json" (some []),
         GcsBlob.mk "bulk_1_2_20250101_123456_compact.json" (some [])])),
        (bulkMatch e.2.2.name).isSome = true ∧ containsCompact e.2.2.name = false) :=
  mav_C10 "1" "2" "20250101_123456"
    [GcsBlob.mk "bulk_1_2_20250101_123456.json" (some []),
     GcsBlob.mk "bulk_1_2_20250101_123456_compact.json" (some [])]

/-! ### Order facts for the lexicographic timestamp comparison -/

theorem lexLt_nil_right (l : List Char) : lexLt l [] = false := by
  cases l <;> rfl

theorem lexLt_irrefl (l : List Char) : lexLt l l = false := by
  induction l with
  | nil => rfl
  | cons a as ih => simp [lexLt, ih]

theorem lexLt_asymm : ∀ (a b : List Char), lexLt a b = true → lexLt b a = false := by
  intro a
  induction a with
  | nil =>
    intro b h
    cases b with
    | nil => cases h
    | cons c cs => exact lexLt_nil_right _
  | cons x xs ih =>
    intro b h
    cases b with
    | nil => rw [lexLt_nil_right] at h; cases h
    | cons y ys =>
      simp only [lexLt] at h ⊢
      by_cases h1 : x.toNat < y.toNat
      · have h2 : ¬ y.toNat < x.toNat := by omega
        have h3 : ¬ y.toNat = x.toNat := by omega
        rw [if_neg h2, if_neg h3]
      · by_cases h2 : x.toNat = y.toNat
        · rw [if_neg h1, if_pos h2] at h
          have h3 : ¬ y.toNat < x.toNat := by omega
          have h4 : y.toNat = x.toNat := h2.symm
          rw [if_neg h3, if_pos h4]
          exact ih ys h
        · rw [if_neg h1, if_neg h2] at h
          cases h

theorem lexLt_false_trans : ∀ (a b c : List Char),
    lexLt b a = false → lexLt c b = false → lexLt c a = false := by
  intro a
  induction a with
  | nil => intro b c _ _; exact lexLt_nil_right c
  | cons x xs ih =>
    intro b c h1 h2
    cases b with
    | nil => simp [lexLt] at h1
    | cons y ys =>
      cases c with
      | nil => simp [lexLt] at h2
      | cons z zs =>
        simp only [lexLt] at h1 h2 ⊢
        by_cases hyx : y.toNat < x.toNat
        · rw [if_pos hyx] at h1
          cases h1
        · by_cases hzy : z.toNat < y.toNat
          · rw [if_pos hzy] at h2
            cases h2
          · by_cases hzx : z.toNat < x.toNat
            · exfalso
              omega
            · rw [if_neg hzx]
              by_cases hzex : z.toNat = x.toNat
              · rw [if_pos hzex]
                have hyex : y.toNat = x.toNat := by omega
                have hzey : z.toNat = y.toNat := by omega
                rw [if_neg hyx, if_pos hyex] at h1
                rw [if_neg hzy, if_pos hzey] at h2
                exact ih ys zs h1 h2
              · rw [if_neg hzex]

theorem strLe_refl (s : String) : strLe s s = true := by
  simp [strLe, strLt, lexLt_irrefl]

theorem strLe_of_lt (s t : String) (h : strLt s t = true) : strLe s t = true := by
  unfold strLe strLt at *
  rw [lexLt_asymm _ _ h]
  rfl

theorem strLe_of_not_lt (s t : String) (h : strLt s t = false) : strLe t s = true := by
  unfold strLe
  rw [h]
  rfl

theorem strLe_trans (a b c : String) (h1 : strLe a b = true) (h2 : strLe b c = true) :
    strLe a c = true := by
  unfold strLe strLt at *
  rw [Bool.not_eq_true'] at h1 h2 ⊢
  exact lexLt_false_trans a.data b.data c.data h1 h2

/-! ### Properties of the deduplication fold -/

theorem alookup_updateLatest_self (acc : List ((String × String) × (String × GcsBlob)))
    (k : String × String) (ts : String) (b : GcsBlob) :
    alookup k (updateLatest acc k ts b) = some
      (match alookup k acc with
       | none => (ts, b)
       | some (t0, b0) => if strLt t0 ts then (ts, b) else (t0, b0)) := by
  induction acc with
  | nil => simp [updateLatest, alookup]
  | cons hd tl ih =>
    obtain ⟨k0, t0, b0⟩ := hd
    by_cases hk : k0 = k
    · subst hk
      simp only [updateLatest, if_pos rfl]
      by_cases ht : strLt t0 ts = true
      · simp [alookup, ht]
      · simp [alookup, ht]
    · simp only [updateLatest, if_neg hk, alookup, ih]

theorem alookup_updateLatest_ne (acc : List ((String × String) × (String × GcsBlob)))
    (k k' : String × String) (ts : String) (b : GcsBlob) (h : k' ≠ k) :
    alookup k' (updateLatest acc k ts b) = alookup k' acc := by
  have h' : ¬ k = k' := fun he => h he.symm
  induction acc with
  | nil =>
    simp only [updateLatest, alookup]
    rw [if_neg h']
  | cons hd tl ih =>
    obtain ⟨k0, t0, b0⟩ := hd
    by_cases hk : k0 = k
    · subst hk
      simp only [updateLatest, if_pos rfl]
      by_cases ht : strLt t0 ts = true
      · simp only [if_pos ht, alookup]
        rw [if_neg h', if_neg h']
      · simp [ht]
    · simp only [updateLatest, if_neg hk, alookup, ih]

theorem latestGo_alookup (bs : List GcsBlob) :
    ∀ (acc) (k), alookup k (latestGo acc bs) = runLatest k (alookup k acc) bs := by
  induction bs with
  | nil => intro acc k; rfl
  | cons b bs ih =>
    intro acc k
    cases hm : bulkMatch b.name with
    | none => simp only [latestGo, runLatest, hm, ih]
    | some odt =>
      obtain ⟨o, d, ts⟩ := odt
      simp only [latestGo, runLatest, hm]
      by_cases hk : (o, d) = k
      · rw [if_pos hk, ih, ← hk, alookup_updateLatest_self]
        cases hcur : alookup (o, d) acc with
        | none => simp only [hcur]
        | some p =>
          obtain ⟨t0, b0⟩ := p
          simp only [hcur]
          by_cases ht : strLt t0 ts = true
          · simp [ht]
          · simp [ht]
      · rw [if_neg hk, ih, alookup_updateLatest_ne _ _ _ _ _ (fun he => hk he.symm)]

theorem runLatest_spec (k : String × String) (bs : List GcsBlob) :
    ∀ (cur) (t : String) (b : GcsBlob), runLatest k cur bs = some (t, b) →
      (cur = some (t, b) ∨ (b ∈ bs ∧ bulkMatch b.name = some (k.1, k.2, t))) ∧
      (∀ t0 b0, cur = some (t0, b0) → strLe t0 t = true) ∧
      (∀ b' ∈ bs, ∀ t', bulkMatch b'.name = some (k.1, k.2, t') → strLe t' t = true) := by
  induction bs with
  | nil =>
    intro cur t b h
    simp only [runLatest] at h
    refine ⟨Or.inl h, ?_, by simp⟩
    intro t0 b0 h0
    rw [h0] at h
    simp only [Option.some_inj, Prod.mk.injEq] at h
    rw [h.1]
    exact strLe_refl t
  | cons b' bs ih =>
    intro cur t b h
    rw [runLatest] at h
    split at h
    · rename_i hm
      obtain ⟨hmem, hcur, hall⟩ := ih cur t b h
      refine ⟨?_, hcur, ?_⟩
      · rcases hmem with h1 | h1
        · exact Or.inl h1
        · exact Or.inr ⟨List.mem_cons_of_mem _ h1.1, h1.2⟩
      · intro b'' hb'' t' hm'
        rcases List.mem_cons.mp hb'' with rfl | hb''
        · rw [hm] at hm'
          cases hm'
        · exact hall b'' hb'' t' hm'
    · rename_i o d ts hm
      by_cases hk : (o, d) = k
      · rw [if_pos hk] at h
        have hk1 : o = k.1 := congrArg Prod.fst hk
        have hk2 : d = k.2 := congrArg Prod.snd hk
        obtain ⟨hmem, hge, hall⟩ := ih _ t b h
        have fact2 : ∃ t1 b1,
            (match cur with
             | none => some (ts, b')
             | some (t0, b0) => if strLt t0 ts then some (ts, b') else some (t0, b0))
              = some (t1, b1) ∧ strLe ts t1 = true := by
          cases cur with
          | none => exact ⟨ts, b', rfl, strLe_refl ts⟩
          | some p =>
            obtain ⟨t0, b0⟩ := p
            by_cases ht : strLt t0 ts = true
            · exact ⟨ts, b',
                show (if strLt t0 ts then some (ts, b') else some (t0, b0)) = some (ts, b')
                  from by rw [if_pos ht], strLe_refl ts⟩
            · have ht2 : strLt t0 ts = false := by
                cases hx : strLt t0 ts
                · rfl
                · exact absurd hx ht
              exact ⟨t0, b0,
                show (if strLt t0 ts then some (ts, b') else some (t0, b0)) = some (t0, b0)
                  from by rw [if_neg ht], strLe_of_not_lt t0 ts ht2⟩
        refine ⟨?_, ?_, ?_⟩
        · rcases hmem with h1 | h1
          · cases cur with
            | none =>
              simp only [Option.some_inj, Prod.mk.injEq] at h1
              have hb : b ∈ b' :: bs := by
                rw [← h1.2]
                exact List.mem_cons_self _ _
              refine Or.inr ⟨hb, ?_⟩
              rw [← h1.2, hm, hk1, hk2, h1.1]
            | some p =>
              obtain ⟨t0, b0⟩ := p
              have h1' : (if strLt t0 ts then some (ts, b') else some (t0, b0))
                  = some (t, b) := h1
              by_cases ht : strLt t0 ts = true
              · rw [if_pos ht] at h1'
                simp only [Option.some_inj, Prod.mk.injEq] at h1'
                have hb : b ∈ b' :: bs := by
                  rw [← h1'.2]
                  exact List.mem_cons_self _ _
                refine Or.inr ⟨hb, ?_⟩
                rw [← h1'.2, hm, hk1, hk2, h1'.1]
              · rw [if_neg ht] at h1'
                exact Or.inl h1'
          · exact Or.inr ⟨List.mem_cons_of_mem _ h1.1, h1.2⟩
        · intro t0 b0 h0
          subst h0
          by_cases ht : strLt t0 ts = true
          · refine strLe_trans t0 ts t (strLe_of_lt t0 ts ht) (hge ts b' ?_)
            show (if strLt t0 ts then some (ts, b') else some (t0, b0)) = some (ts, b')
            rw [if_pos ht]
          · refine hge t0 b0 ?_
            show (if strLt t0 ts then some (ts, b') else some (t0, b0)) = some (t0, b0)
            rw [if_neg ht]
        · intro b'' hb'' t' hm'
          rcases List.mem_cons.mp hb'' with rfl | hb''
          · rw [hm] at hm'
            simp only [Option.some_inj, Prod.mk.injEq] at hm'
            obtain ⟨t1, b1, he1, he2⟩ := fact2
            rw [← hm'.2.2]
            exact strLe_trans ts t1 t he2 (hge t1 b1 he1)
          · exact hall b'' hb'' t' hm'
      · rw [if_neg hk] at h
        obtain ⟨hmem, hcur, hall⟩ := ih cur t b h
        refine ⟨?_, hcur, ?_⟩
        · rcases hmem with h1 | h1
          · exact Or.inl h1
          · exact Or.inr ⟨List.mem_cons_of_mem _ h1.1, h1.2⟩
        · intro b'' hb'' t' hm'
          rcases List.mem_cons.mp hb'' with rfl | hb''
          · rw [hm] at hm'
            simp only [Option.some_inj, Prod.mk.injEq] at hm'
            exact absurd (by rw [hm'.1, hm'.2.1]) hk
          · exact hall b'' hb'' t' hm'

theorem runLatest_none (k : String × String) (bs : List GcsBlob) :
    ∀ cur, runLatest k cur bs = none →
      cur = none ∧ ∀ b ∈ bs, ∀ t, bulkMatch b.name ≠ some (k.1, k.2, t) := by
  induction bs with
  | nil =>
    intro cur h
    exact ⟨h, by simp⟩
  | cons b bs ih =>
    intro cur h
    rw [runLatest] at h
    split at h
    · rename_i hm
      obtain ⟨h1, h2⟩ := ih cur h
      refine ⟨h1, ?_⟩
      intro b' hb' t hmm'
      rcases List.mem_cons.mp hb' with rfl | hb'
      · rw [hm] at hmm'
        cases hmm'
      · exact h2 b' hb' t hmm'
    · rename_i o d ts hm
      by_cases hk : (o, d) = k
      · rw [if_pos hk] at h
        obtain ⟨h1, -⟩ := ih _ h
        exfalso
        cases hcur : cur with
        | none =>
          rw [hcur] at h1
          cases h1
        | some p =>
          obtain ⟨t0, b0⟩ := p
          rw [hcur] at h1
          have h1' : (if strLt t0 ts then some (ts, b) else some (t0, b0)) = none := h1
          by_cases ht : strLt t0 ts = true
          · rw [if_pos ht] at h1'
            cases h1'
          · rw [if_neg ht] at h1'
            cases h1'
      · rw [if_neg hk] at h
        obtain ⟨h1, h2⟩ := ih cur h
        refine ⟨h1, ?_⟩
        intro b' hb' t hmm'
        rcases List.mem_cons.mp hb' with rfl | hb'
        · rw [hm] at hmm'
          simp only [Option.some_inj, Prod.mk.injEq] at hmm'
          exact hk (by rw [hmm'.1, hmm'.2.1])
        · exact h2 b' hb' t hmm'

theorem updateLatest_keys (acc : List ((String × String) × (String × GcsBlob)))
    (k : String × String) (ts : String) (b : GcsBlob) :
    (updateLatest acc k ts b).map Prod.fst =
      if k ∈ acc.map Prod.fst then acc.map Prod.fst else acc.map Prod.fst ++ [k] := by
  induction acc with
  | nil => simp [updateLatest]
  | cons hd tl ih =>
    obtain ⟨k0, t0, b0⟩ := hd
    by_cases hk : k0 = k
    · subst hk
      simp only [updateLatest, if_pos rfl]
      by_cases ht : strLt t0 ts = true
      · simp [ht]
      · simp [ht]
    · have hk' : ¬ k = k0 := fun he => hk he.symm
      simp only [updateLatest, if_neg hk, List.map_cons, ih]
      by_cases hmem : k ∈ tl.map Prod.fst
      · simp [hmem, hk']
      · simp [hmem, hk']

theorem latestGo_keys_nodup (bs : List GcsBlob) :
    ∀ acc, ((acc.map Prod.fst).Nodup) → (((latestGo acc bs).map Prod.fst).Nodup) := by
  induction bs with
  | nil => intro acc h; exact h
  | cons b bs ih =>
    intro acc h
    rw [latestGo]
    split
    · exact ih acc h
    · refine ih _ ?_
      rw [updateLatest_keys]
      rename_i o d ts hm
      by_cases hmem : (o, d) ∈ acc.map Prod.fst
      · rw [if_pos hmem]
        exact h
      · rw [if_neg hmem]
        simp [List.nodup_append, h, hmem]

theorem pairs_filterMap (entries : List ((String × String) × (String × GcsBlob))) :
    ((entries.filterMap (fun e =>
        match e.2.2.payload with
        | none => none
        | some routes => some (⟨e.1.1, e.1.2, routes⟩ : BulkData))).map
      (fun bd => (bd.start_station, bd.end_station))).Sublist
      (entries.map Prod.fst) := by
  induction entries with
  | nil => simp
  | cons e es ih =>
    cases hp : e.2.2.payload with
    | none =>
      simp only [List.filterMap_cons, hp, List.map_cons]
      exact ih.cons _
    | some routes =>
      simp only [List.filterMap_cons, hp, List.map_cons]
      exact ih.cons₂ _

/-- C3: the Day Loader's per-date deduplication keeps at most one blob per
ordered pair (the dict keys are unique, hence the parsed result has at most
one Observation per pair), and the kept blob for a pair is one of the
listed blobs, has a name matched by the filename pattern with that pair,
and carries the lexicographically maximum timestamp among all listed blobs
matching the pair; blobs whose names do not match contribute nothing (a
pair has an entry exactly when some matching blob is listed). -/
theorem mav_C3 (blobs : List GcsBlob) :
    (((latestBlobs (compactFilter (jsonFilter blobs))).map Prod.fst).Nodup) ∧
    (∀ (k : String × String) (v : String × GcsBlob),
        alookup k (latestBlobs (compactFilter (jsonFilter blobs))) = some v →
        v.2 ∈ compactFilter (jsonFilter blobs) ∧
        bulkMatch v.2.name = some (k.1, k.2, v.1) ∧
        ∀ b ∈ compactFilter (jsonFilter blobs), ∀ t',
          bulkMatch b.name = some (k.1, k.2, t') → strLe t' v.1 = true) ∧
    (∀ b ∈ compactFilter (jsonFilter blobs), ∀ o d t,
        bulkMatch b.name = some (o, d, t) →
        alookup (o, d) (latestBlobs (compactFilter (jsonFilter blobs))) ≠ none) ∧
    (((processDate blobs).map (fun bd => (bd.start_station, bd.end_station))).Nodup) := by
  refine ⟨latestGo_keys_nodup _ [] (by simp), ?_, ?_, ?_⟩
  · intro k v hv
    rw [latestBlobs, latestGo_alookup] at hv
    obtain ⟨t, b⟩ := v
    obtain ⟨hmem, -, hall⟩ := runLatest_spec k _ _ t b hv
    rcases hmem with h1 | h1
    · simp [alookup] at h1
    · exact ⟨h1.1, h1.2, hall⟩
  · intro b hb o d t hm hnone
    rw [latestBlobs, latestGo_alookup] at hnone
    obtain ⟨-, h2⟩ := runLatest_none (o, d) _ _ hnone
    exact h2 b hb t hm
  · exact List.Sublist.nodup (pairs_filterMap _) (latestGo_keys_nodup _ [] (by simp))

/-- C3 witness: two blobs for the pair `(1, 2)`; the loader keeps the one
with the later timestamp suffix. -/
theorem mav_C3_witness :
    (GcsBlob.mk "bulk_1_2_20250801_090000.json" (some [])) ∈
        compactFilter (jsonFilter
          [GcsBlob.mk "bulk_1_2_20250801_080000.json" (some []),
           GcsBlob.mk "bulk_1_2_20250801_090000.json" (some [])]) ∧
    bulkMatch "bulk_1_2_20250801_090000.json" = some ("1", "2", "20250801_090000") ∧
    (∀ b ∈ compactFilter (jsonFilter
          [GcsBlob.mk "bulk_1_2_20250801_080000.json" (some []),
           GcsBlob.mk "bulk_1_2_20250801_090000.json" (some [])]), ∀ t',
        bulkMatch b.name = some ("1", "2", t') → strLe t' "20250801_090000" = true) :=
  (mav_C3
      [GcsBlob.mk "bulk_1_2_20250801_080000.json" (some []),
       GcsBlob.mk "bulk_1_2_20250801_090000.json" (some [])]).2.1
    ("1", "2") ("20250801_090000", GcsBlob.mk "bulk_1_2_20250801_090000.json" (some []))
    (by decide)
theorem loadDaysGo_ok (store : ℤ → List GcsBlob) (target : ℤ) :
    ∀ (ks : List ℕ) (d : ℤ) (data : List BulkData),
      loadDaysGo store target ks = Except.ok (d, data) →
      ∃ (pre post : List ℕ) (k : ℕ), ks = pre ++ k :: post ∧
        (∀ j ∈ pre, processDate (store (target - (j : ℤ))) = []) ∧
        d = target - (k : ℤ) ∧ processDate (store (target - (k : ℤ))) = data ∧
        data ≠ [] := by
  intro ks
  induction ks with
  | nil => intro d data h; cases h
  | cons k rest ih =>
    intro d data h
    rw [loadDaysGo] at h
    by_cases he : processDate (store (target - (k : ℤ))) = []
    · rw [if_pos he] at h
      obtain ⟨pre, post, k', hks, hpre, hd, hdata, hne⟩ := ih d data h
      refine ⟨k :: pre, post, k', by rw [hks]; rfl, ?_, hd, hdata, hne⟩
      intro j hj
      rcases List.mem_cons.mp hj with rfl | hj
      · exact he
      · exact hpre j hj
    · rw [if_neg he] at h
      simp only [Except.ok.injEq, Prod.mk.injEq] at h
      refine ⟨[], rest, k, rfl, by simp, h.1.symm, h.2, ?_⟩
      rw [← h.2]
      exact he

theorem loadDaysGo_err (store : ℤ → List GcsBlob) (target : ℤ) :
    ∀ ks : List ℕ, (∀ j ∈ ks, processDate (store (target - (j : ℤ))) = []) →
      loadDaysGo store target ks = Except.error () := by
  intro ks
  induction ks with
  | nil => intro _; rfl
  | cons k rest ih =>
    intro h
    rw [loadDaysGo, if_pos (h k (List.mem_cons_self _ _))]
    exact ih (fun j hj => h j (List.mem_cons_of_mem _ hj))

/-- C6: `load_all_bulk_files_from_gcs(target_date, max_days_back)` tries
`target`, `target − 1`, …, `target − (max_days_back − 1)` in order; a
successful result comes from the first date in that sequence whose pipeline
yields observations (every earlier offset yielded none), and when no date in
the window has any objects at all the call raises (`NoDataAvailable`). -/
theorem mav_C6 (store : ℤ → List GcsBlob) (target : ℤ) (max_days_back : ℕ) :
    (∀ (d : ℤ) (data : List BulkData),
        load_all_bulk_files_from_gcs store target max_days_back = Except.ok (d, data) →
        ∃ k : ℕ, k < max_days_back ∧ d = target - (k : ℤ) ∧
          processDate (store (target - (k : ℤ))) = data ∧ data ≠ [] ∧
          ∀ j : ℕ, j < k → processDate (store (target - (j : ℤ))) = []) ∧
    ((∀ k : ℕ, k < max_days_back → store (target - (k : ℤ)) = []) →
        load_all_bulk_files_from_gcs store target max_days_back = Except.error ()) := by
  constructor
  · intro d data h
    obtain ⟨pre, post, k, hks, hpre, hd, hdata, hne⟩ :=
      loadDaysGo_ok store target _ d data h
    have hlen : pre.length < max_days_back := by
      have hl := congrArg List.length hks
      simp only [List.length_range, List.length_append, List.length_cons] at hl
      omega
    have hk : k = pre.length := by
      have h1 : (List.range max_days_back)[pre.length]? = some k := by
        rw [hks, List.getElem?_append_right (le_refl _)]
        simp
      rw [List.getElem?_range hlen] at h1
      exact (Option.some_inj.mp h1).symm
    have hpre_eq : pre = List.range pre.length := by
      have h1 : pre = (List.range max_days_back).take pre.length := by
        rw [hks]
        exact (List.take_left _ _).symm
      rw [h1, List.take_range]
      simp [Nat.min_eq_left hlen.le]
    refine ⟨k, by rw [hk]; exact hlen, hd, hdata, hne, ?_⟩
    intro j hj
    apply hpre
    rw [hpre_eq, List.mem_range]
    omega
  · intro hempty
    apply loadDaysGo_err
    intro j hj
    rw [hempty j (List.mem_range.mp hj)]
    rfl

/-- C6 witness: the store has objects only two days before the target. -/
theorem mav_C6_witness :
    ∃ k : ℕ, k < 8 ∧ (3 : ℤ) = 5 - (k : ℤ) ∧
      processDate ((fun dd => if dd = (3 : ℤ) then
          [GcsBlob.mk "bulk_1_2_20250101_123456.json" (some [BulkRoute.mk []])]
        else []) (5 - (k : ℤ))) = [BulkData.mk "1" "2" [BulkRoute.mk []]] ∧
      [BulkData.mk "1" "2" [BulkRoute.mk []]] ≠ [] ∧
      ∀ j : ℕ, j < k →
        processDate ((fun dd => if dd = (3 : ℤ) then
            [GcsBlob.mk "bulk_1_2_20250101_123456.json" (some [BulkRoute.mk []])]
          else []) (5 - (j : ℤ))) = [] :=
  (mav_C6 (fun dd => if dd = (3 : ℤ) then
      [GcsBlob.mk "bulk_1_2_20250101_123456.json" (some [BulkRoute.mk []])]
    else []) 5 8).1 3 [BulkData.mk "1" "2" [BulkRoute.mk []]] rfl

theorem foldl_max_le (l : List ℤ) : ∀ x : ℤ,
    x ≤ l.foldl max x ∧ ∀ y ∈ l, y ≤ l.foldl max x := by
  induction l with
  | nil => intro x; exact ⟨le_refl x, by simp⟩
  | cons a l ih =>
    intro x
    rw [List.foldl_cons]
    obtain ⟨h1, h2⟩ := ih (max x a)
    refine ⟨le_trans (le_max_left x a) h1, ?_⟩
    intro y hy
    rcases List.mem_cons.mp hy with rfl | hy
    · exact le_trans (le_max_right x y) h1
    · exact h2 y hy

theorem foldl_max_mem (l : List ℤ) : ∀ x : ℤ,
    l.foldl max x = x ∨ l.foldl max x ∈ l := by
  induction l with
  | nil => intro x; exact Or.inl rfl
  | cons a l ih =>
    intro x
    rw [List.foldl_cons]
    rcases ih (max x a) with h | h
    · rcases max_choice x a with hm | hm
      · exact Or.inl (by rw [h, hm])
      · exact Or.inr (by rw [h, hm]; exact List.mem_cons_self _ _)
    · exact Or.inr (List.mem_cons_of_mem _ h)

theorem pyMax_sup (l : List ℤ) (h : l ≠ []) :
    pyMax l ∈ l ∧ ∀ x ∈ l, x ≤ pyMax l := by
  cases l with
  | nil => exact absurd rfl h
  | cons a l =>
    have hpy : pyMax (a :: l) = l.foldl max a := rfl
    rw [hpy]
    obtain ⟨h1, h2⟩ := foldl_max_le l a
    constructor
    · rcases foldl_max_mem l a with hm | hm
      · rw [hm]
        exact List.mem_cons_self _ _
      · exact List.mem_cons_of_mem _ hm
    · intro x hx
      rcases List.mem_cons.mp hx with rfl | hx
      · exact h1
      · exact h2 x hx

theorem alookup_pyDictInsert_self {β : Type}
    (acc : List ((String × String) × β)) (k : String × String) (v : β) :
    alookup k (pyDictInsert acc k v) = some v := by
  induction acc with
  | nil => simp [pyDictInsert, alookup]
  | cons hd tl ih =>
    obtain ⟨k0, v0⟩ := hd
    by_cases hk : k0 = k
    · simp [pyDictInsert, hk, alookup]
    · simp only [pyDictInsert, if_neg hk, alookup, ih]

theorem create_map_skip (l : List BulkData) :
    ∀ (acc : List ((String × String) × StationPairDelay)) (k : String × String),
      (∀ bd ∈ l, (bd.start_station, bd.end_station) ≠ k) →
      alookup k (l.foldl (fun acc bd =>
        pyDictInsert acc (bd.start_station, bd.end_station) (stationDelayEntry bd)) acc)
        = alookup k acc := by
  induction l with
  | nil => intro acc k _; rfl
  | cons bd l ih =>
    intro acc k h
    rw [List.foldl_cons, ih _ k (fun x hx => h x (List.mem_cons_of_mem _ hx))]
    clear ih
    have hne : (bd.start_station, bd.end_station) ≠ k := h bd (List.mem_cons_self _ _)
    induction acc with
    | nil =>
      simp only [pyDictInsert, alookup]
      rw [if_neg hne]
    | cons hd tl ih2 =>
      obtain ⟨k0, v0⟩ := hd
      by_cases hk : k0 = (bd.start_station, bd.end_station)
      · subst hk
        simp only [pyDictInsert, if_pos rfl, alookup]
        rw [if_neg hne, if_neg hne]
      · simp only [pyDictInsert, if_neg hk, alookup, ih2]

theorem create_map_lookup (l : List BulkData) (bd : BulkData) (hmem : bd ∈ l)
    (hnodup : (l.map fun x => (x.start_station, x.end_station)).Nodup) :
    alookup (bd.start_station, bd.end_station) (create_station_delay_map l)
      = some (stationDelayEntry bd) := by
  obtain ⟨l1, l2, rfl⟩ := List.append_of_mem hmem
  have hnot : (bd.start_station, bd.end_station) ∉
      (l1.map fun x => (x.start_station, x.end_station)) ++
      (l2.map fun x => (x.start_station, x.end_station)) := by
    rw [List.map_append, List.map_cons] at hnodup
    exact (List.nodup_cons.mp (List.nodup_middle.mp hnodup)).1
  have hl2 : ∀ x ∈ l2, (x.start_station, x.end_station) ≠
      (bd.start_station, bd.end_station) := by
    intro x hx he
    exact hnot (List.mem_append.mpr (Or.inr (by rw [← he]; exact List.mem_map_of_mem _ hx)))
  rw [create_station_delay_map, List.foldl_append, List.foldl_cons,
    create_map_skip l2 _ _ hl2]
  exact alookup_pyDictInsert_self _ _ _

/-- C4: for a list of observations with pairwise-distinct pairs (as the Day
Loader guarantees), the per-pair summary of a pair's observation has
`max_delay` equal to the maximum of the strictly positive leg delay values
together with 0, `average_delay` equal to the arithmetic mean of those
values (0 when there are none), and `sample_count` equal to their number. -/
theorem mav_C4 (l : List BulkData) (o d : String) (bd : BulkData)
    (hmem : bd ∈ l) (hpair : bd.start_station = o ∧ bd.end_station = d)
    (hnodup : (l.map fun x => (x.start_station, x.end_station)).Nodup) :
    ∃ spd, alookup (o, d) (create_station_delay_map l) = some spd ∧
      (spd.max_delay ∈ (0 : ℤ) :: positiveDelays bd ∧
        ∀ v ∈ (0 : ℤ) :: positiveDelays bd, v ≤ spd.max_delay) ∧
      (positiveDelays bd = [] → spd.average_delay = 0) ∧
      (positiveDelays bd ≠ [] →
        spd.average_delay =
          ((positiveDelays bd).map (fun z => (z : ℚ))).sum / (positiveDelays bd).length) ∧
      spd.sample_count = (positiveDelays bd).length := by
  have hpos : ∀ v ∈ positiveDelays bd, 0 < v := by
    intro v hv
    have := (List.mem_filter.mp hv).2
    simpa using this
  refine ⟨stationDelayEntry bd, ?_, ?_, ?_, ?_, rfl⟩
  · rw [← hpair.1, ← hpair.2]
    exact create_map_lookup l bd hmem hnodup
  · have hmax : (stationDelayEntry bd).max_delay = pyMax (positiveDelays bd) := rfl
    rw [hmax]
    cases hl : positiveDelays bd with
    | nil => simp [pyMax]
    | cons a as =>
      obtain ⟨h1, h2⟩ := pyMax_sup (a :: as) (by simp)
      refine ⟨List.mem_cons_of_mem _ h1, ?_⟩
      intro v hv
      rcases List.mem_cons.mp hv with rfl | hv
      · have h1' : pyMax (a :: as) ∈ positiveDelays bd := by
          rw [hl]
          exact h1
        have hp := hpos _ h1'
        omega
      · exact h2 v hv
  · intro h
    show pyMeanZ (positiveDelays bd) = 0
    rw [pyMeanZ, if_pos h]
  · intro h
    show pyMeanZ (positiveDelays bd) = _
    rw [pyMeanZ, if_neg h]

/-- C4 witness: one pair with a single itinerary having a single leg whose
departure delay is 7 and arrival delay 3: `max = 7`, `mean = 5`,
`sample_count = 2`. -/
theorem mav_C4_witness :
    (∃ spd, alookup ("A", "B") (create_station_delay_map
          [BulkData.mk "A" "B" [BulkRoute.mk [LegSeg.mk 7 3]]]) = some spd ∧
      (spd.max_delay ∈ (0 : ℤ) ::
          positiveDelays (BulkData.mk "A" "B" [BulkRoute.mk [LegSeg.mk 7 3]]) ∧
        ∀ v ∈ (0 : ℤ) ::
          positiveDelays (BulkData.mk "A" "B" [BulkRoute.mk [LegSeg.mk 7 3]]),
          v ≤ spd.max_delay) ∧
      (positiveDelays (BulkData.mk "A" "B" [BulkRoute.mk [LegSeg.mk 7 3]]) = [] →
        spd.average_delay = 0) ∧
      (positiveDelays (BulkData.mk "A" "B" [BulkRoute.mk [LegSeg.mk 7 3]]) ≠ [] →
        spd.average_delay =
          ((positiveDelays (BulkData.mk "A" "B" [BulkRoute.mk [LegSeg.mk 7 3]])).map
            (fun z => (z : ℚ))).sum /
          (positiveDelays (BulkData.mk "A" "B" [BulkRoute.mk [LegSeg.mk 7 3]])).length) ∧
      spd.sample_count =
        (positiveDelays (BulkData.mk "A" "B" [BulkRoute.mk [LegSeg.mk 7 3]])).length) ∧
    stationDelayEntry (BulkData.mk "A" "B" [BulkRoute.mk [LegSeg.mk 7 3]])
      = StationPairDelay.mk 5 7 2 :=
  ⟨mav_C4 [BulkData.mk "A" "B" [BulkRoute.mk [LegSeg.mk 7 3]]] "A" "B"
      (BulkData.mk "A" "B" [BulkRoute.mk [LegSeg.mk 7 3]])
      (List.mem_cons_self _ _) ⟨rfl, rfl⟩ (by decide),
    by
      have hent : stationDelayEntry (BulkData.mk "A" "B" [BulkRoute.mk [LegSeg.mk 7 3]])
          = ⟨pyMeanZ [7, 3], pyMax [7, 3], 2⟩ := rfl
      rw [hent]
      simp only [StationPairDelay.mk.injEq]
      refine ⟨?_, by decide, trivial⟩
      rw [pyMeanZ, if_neg (by simp : ¬([7, 3] : List ℤ) = [])]
      norm_num⟩

theorem occAux_mem (l : List String) (t : String) :
    ∀ (n i : ℕ), (i ∈ ((l.enumFrom n).filter (fun p => p.2 == t)).map Prod.fst ↔
      ∃ m, i = n + m ∧ l[m]? = some t) := by
  induction l with
  | nil =>
    intro n i
    simp
  | cons a l ih =>
    intro n i
    rw [List.enumFrom_cons, List.filter_cons]
    by_cases hat : a = t
    · subst hat
      rw [if_pos (by simp), List.map_cons]
      constructor
      · intro h
        rcases List.mem_cons.mp h with rfl | h
        · exact ⟨0, by omega, by simp⟩
        · obtain ⟨m, rfl, hm⟩ := (ih (n + 1) i).mp h
          exact ⟨m + 1, by omega, by simpa using hm⟩
      · rintro ⟨m, rfl, hm⟩
        cases m with
        | zero => simp
        | succ m =>
          refine List.mem_cons_of_mem _
            ((ih (n + 1) (n + (m + 1))).mpr ⟨m, by omega, by simpa using hm⟩)
    · rw [if_neg (by simpa using hat)]
      rw [ih (n + 1) i]
      constructor
      · rintro ⟨m, rfl, hm⟩
        exact ⟨m + 1, by omega, by simpa using hm⟩
      · rintro ⟨m, rfl, hm⟩
        cases m with
        | zero =>
          simp only [List.getElem?_cons_zero, Option.some_inj] at hm
          exact absurd hm hat
        | succ m => exact ⟨m, by omega, by simpa using hm⟩

theorem occAux_head (l : List String) (t : String) :
    ∀ (n i : ℕ) (rest : List ℕ),
      ((l.enumFrom n).filter (fun p => p.2 == t)).map Prod.fst = i :: rest →
      ∃ m, i = n + m ∧ l[m]? = some t ∧ ∀ m' < m, l[m']? ≠ some t := by
  induction l with
  | nil =>
    intro n i rest h
    exact absurd h (by simp)
  | cons a l ih =>
    intro n i rest h
    rw [List.enumFrom_cons, List.filter_cons] at h
    by_cases hat : a = t
    · subst hat
      rw [if_pos (by simp), List.map_cons] at h
      injection h with h1 h2
      refine ⟨0, by omega, by simp, ?_⟩
      intro m' hm'
      exact absurd hm' (Nat.not_lt_zero _)
    · rw [if_neg (by simpa using hat)] at h
      obtain ⟨m, hi, hm, hleast⟩ := ih (n + 1) i rest h
      refine ⟨m + 1, by omega, by simpa using hm, ?_⟩
      intro m' hm'
      cases m' with
      | zero => simpa using hat
      | succ m'' =>
        have := hleast m'' (by omega)
        simpa using this

theorem occAux_ge (l : List String) (t : String) (n i : ℕ)
    (h : i ∈ ((l.enumFrom n).filter (fun p => p.2 == t)).map Prod.fst) : n ≤ i := by
  obtain ⟨m, rfl, -⟩ := (occAux_mem l t n i).mp h
  omega

theorem occAux_pairwise (l : List String) (t : String) :
    ∀ n, (((l.enumFrom n).filter (fun p => p.2 == t)).map Prod.fst).Pairwise (· < ·) := by
  induction l with
  | nil =>
    intro n
    simp
  | cons a l ih =>
    intro n
    rw [List.enumFrom_cons, List.filter_cons]
    by_cases hat : a = t
    · subst hat
      rw [if_pos (by simp), List.map_cons]
      refine List.Pairwise.cons ?_ (ih (n + 1))
      intro j hj
      have := occAux_ge l a (n + 1) j hj
      omega
    · rw [if_neg (by simpa using hat)]
      exact ih (n + 1)

theorem mem_occurrenceIdxs (ids : List String) (t : String) (i : ℕ) :
    i ∈ occurrenceIdxs ids t ↔ ids[i]? = some t := by
  have h := occAux_mem ids t 0 i
  constructor
  · intro hmem
    obtain ⟨m, rfl, hm⟩ := h.mp hmem
    simpa using hm
  · intro hget
    exact h.mpr ⟨i, by omega, hget⟩

theorem head_occurrenceIdxs (ids : List String) (t : String) (i : ℕ) (rest : List ℕ)
    (h : occurrenceIdxs ids t = i :: rest) :
    ids[i]? = some t ∧ ∀ i' < i, ids[i']? ≠ some t := by
  obtain ⟨m, hi, hm, hleast⟩ := occAux_head ids t 0 i rest h
  have hmi : i = m := by omega
  subst hmi
  exact ⟨hm, fun i' hi' => hleast i' hi'⟩

theorem occurrenceIdxs_pairwise (ids : List String) (t : String) :
    (occurrenceIdxs ids t).Pairwise (· < ·) :=
  occAux_pairwise ids t 0

theorem filter_head_least (p : ℕ → Bool) :
    ∀ (l : List ℕ), l.Pairwise (· < ·) → ∀ (j : ℕ) (rest : List ℕ),
      l.filter p = j :: rest →
      j ∈ l ∧ p j = true ∧ ∀ j' ∈ l, p j' = true → j ≤ j' := by
  intro l
  induction l with
  | nil =>
    intro _ j rest h
    exact absurd h (by simp)
  | cons a l ih =>
    intro hp j rest h
    rw [List.filter_cons] at h
    by_cases hpa : p a = true
    · rw [if_pos hpa] at h
      injection h with h1 h2
      subst h1
      refine ⟨List.mem_cons_self _ _, hpa, ?_⟩
      intro j' hj' _
      rcases List.mem_cons.mp hj' with rfl | hj'
      · exact le_refl _
      · exact le_of_lt ((List.pairwise_cons.mp hp).1 j' hj')
    · rw [if_neg hpa] at h
      obtain ⟨h1, h2, h3⟩ := ih (List.pairwise_cons.mp hp).2 j rest h
      refine ⟨List.mem_cons_of_mem _ h1, h2, ?_⟩
      intro j' hj' hpj'
      rcases List.mem_cons.mp hj' with rfl | hj'
      · exact absurd hpj' hpa
      · exact h3 j' hj' hpj'

theorem core_sound (ids : List String) (o dst : String) :
    ∀ ij ∈ find_route_segments_core ids o dst,
      ij.1 < ij.2 ∧ ids[ij.1]? = some o ∧ ids[ij.2]? = some dst := by
  intro ij hij
  unfold find_route_segments_core at hij
  simp only [List.mem_flatMap, List.mem_map, List.mem_filter] at hij
  obtain ⟨i, hi, j, ⟨hj, hlt⟩, heq⟩ := hij
  subst heq
  exact ⟨by simpa using hlt, (mem_occurrenceIdxs ids o i).mp hi,
    (mem_occurrenceIdxs ids dst j).mp hj⟩

theorem core_head (ids : List String) (o dst : String) (i j : ℕ) (rest : List (ℕ × ℕ))
    (h : find_route_segments_core ids o dst = (i, j) :: rest) :
    ids[i]? = some o ∧ (∀ i' < i, ids[i']? ≠ some o) ∧
    ids[j]? = some dst ∧ i < j ∧ (∀ j', i < j' → j' < j → ids[j']? ≠ some dst) := by
  cases hstarts : occurrenceIdxs ids o with
  | nil =>
    unfold find_route_segments_core at h
    rw [hstarts] at h
    exact absurd h (by simp)
  | cons i0 srest =>
    have hi0 := head_occurrenceIdxs ids o i0 srest hstarts
    cases hends : (occurrenceIdxs ids dst).filter (fun j' => decide (i0 < j')) with
    | nil =>
      exfalso
      unfold find_route_segments_core at h
      rw [hstarts, List.flatMap_cons, hends] at h
      simp only [List.map_nil, List.nil_append] at h
      have hmem : (i, j) ∈ srest.flatMap (fun i' =>
          ((occurrenceIdxs ids dst).filter (fun j' => decide (i' < j'))).map
            (fun j' => (i', j'))) := by
        rw [h]
        exact List.mem_cons_self _ _
      simp only [List.mem_flatMap, List.mem_map, List.mem_filter] at hmem
      obtain ⟨i', hi', j', ⟨hj', hlt⟩, heq⟩ := hmem
      have hpw := occurrenceIdxs_pairwise ids o
      rw [hstarts] at hpw
      have hii : i0 < i' := (List.pairwise_cons.mp hpw).1 i' hi'
      have hjf : j' ∈ (occurrenceIdxs ids dst).filter (fun j'' => decide (i0 < j'')) := by
        refine List.mem_filter.mpr ⟨hj', ?_⟩
        simp only [decide_eq_true_eq] at hlt ⊢
        omega
      rw [hends] at hjf
      exact absurd hjf (List.not_mem_nil _)
    | cons j0 jrest =>
      unfold find_route_segments_core at h
      rw [hstarts, List.flatMap_cons, hends, List.map_cons, List.cons_append] at h
      injection h with h1 h2
      have hi_eq : i0 = i := congrArg Prod.fst h1
      have hj_eq : j0 = j := congrArg Prod.snd h1
      obtain ⟨hfmem, hfp, hfleast⟩ :=
        filter_head_least (fun j' => decide (i0 < j')) (occurrenceIdxs ids dst)
          (occurrenceIdxs_pairwise ids dst) j0 jrest hends
      rw [← hi_eq, ← hj_eq]
      refine ⟨hi0.1, hi0.2, (mem_occurrenceIdxs ids dst j0).mp hfmem, by simpa using hfp, ?_⟩
      intro j' h1' h2' hget
      have hj'mem : j' ∈ occurrenceIdxs ids dst := (mem_occurrenceIdxs ids dst j').mpr hget
      have hle := hfleast j' hj'mem (by simpa using h1')
      omega

/-- C8: per pattern, every match pairs an occurrence of the origin with a
strictly later occurrence of the destination (reverse traversal is never
matched), and the first match returned is the earliest occurrence of the
origin together with the earliest occurrence of the destination after it. -/
theorem mav_C8 (ids : List String) (o dst : String) :
    (∀ ij ∈ find_route_segments_core ids o dst,
        ij.1 < ij.2 ∧ ids[ij.1]? = some o ∧ ids[ij.2]? = some dst) ∧
    (∀ (i j : ℕ) (rest : List (ℕ × ℕ)),
        find_route_segments_core ids o dst = (i, j) :: rest →
        ids[i]? = some o ∧ (∀ i', i' < i → ids[i']? ≠ some o) ∧
        ids[j]? = some dst ∧ i < j ∧
        (∀ j', i < j' → j' < j → ids[j']? ≠ some dst)) :=
  ⟨core_sound ids o dst, fun i j rest h => core_head ids o dst i j rest h⟩

/-- C8 witness: the pattern `[A, B, A, B]`, in which the origin occurs
twice, yields the matches `(0,1), (0,3), (2,3)`, headed by the
earliest-origin / earliest-later-destination combination `(0, 1)`. -/
theorem mav_C8_witness :
    (["A", "B", "A", "B"] : List String)[0]? = some "A" ∧
    (∀ i', i' < 0 → (["A", "B", "A", "B"] : List String)[i']? ≠ some "A") ∧
    (["A", "B", "A", "B"] : List String)[1]? = some "B" ∧ 0 < 1 ∧
    (∀ j', 0 < j' → j' < 1 → (["A", "B", "A", "B"] : List String)[j']? ≠ some "B") :=
  (mav_C8 ["A", "B", "A", "B"] "A" "B").2 0 1 [(0, 3), (2, 3)] (by decide)

theorem alookup_mem {β : Type} (k : String × String) (v : β) :
    ∀ l : List ((String × String) × β), alookup k l = some v → (k, v) ∈ l := by
  intro l
  induction l with
  | nil => intro h; cases h
  | cons hd tl ih =>
    obtain ⟨k0, v0⟩ := hd
    intro h
    rw [alookup] at h
    by_cases hk : k0 = k
    · rw [if_pos hk] at h
      subst hk
      rw [Option.some_inj] at h
      subst h
      exact List.mem_cons_self _ _
    · rw [if_neg hk] at h
      exact List.mem_cons_of_mem _ (ih h)

theorem alookup_map_val {β γ : Type} (f : β → γ) (k : String × String) :
    ∀ l : List ((String × String) × β),
      alookup k (l.map (fun e => (e.1, f e.2))) = (alookup k l).map f := by
  intro l
  induction l with
  | nil => rfl
  | cons hd tl ih =>
    obtain ⟨k0, v0⟩ := hd
    by_cases hk : k0 = k
    · simp [alookup, hk]
    · simp only [List.map_cons, alookup, if_neg hk, ih]

theorem appendContrib_pres (acc : List ((String × String) × (List ℤ × List ℚ)))
    (k : String × String) (m : ℤ) (a : ℚ)
    (h : ∀ e ∈ acc, e.2.1 ≠ [] ∧ e.2.1.length = e.2.2.length) :
    ∀ e ∈ appendContrib acc k m a, e.2.1 ≠ [] ∧ e.2.1.length = e.2.2.length := by
  induction acc with
  | nil =>
    intro e he
    simp only [appendContrib, List.mem_singleton] at he
    subst he
    exact ⟨by simp, rfl⟩
  | cons hd tl ih =>
    obtain ⟨k0, ms, avs⟩ := hd
    intro e he
    simp only [appendContrib] at he
    by_cases hk : k0 = k
    · rw [if_pos hk] at he
      rcases List.mem_cons.mp he with rfl | he
      · have hh2 : ms.length = avs.length :=
          (h (k0, ms, avs) (List.mem_cons_self _ _)).2
        refine ⟨by simp, ?_⟩
        simp only [List.length_append, List.length_cons, List.length_nil]
        omega
      · exact h e (List.mem_cons_of_mem _ he)
    · rw [if_neg hk] at he
      rcases List.mem_cons.mp he with rfl | he
      · exact h _ (List.mem_cons_self _ _)
      · exact ih (fun x hx => h x (List.mem_cons_of_mem _ hx)) e he

theorem foldl_preserve {α β : Type} (P : β → Prop) (f : β → α → β)
    (hf : ∀ acc x, P acc → P (f acc x)) :
    ∀ (l : List α) (acc : β), P acc → P (l.foldl f acc) := by
  intro l
  induction l with
  | nil => intro acc h; exact h
  | cons x l ih =>
    intro acc h
    rw [List.foldl_cons]
    exact ih _ (hf acc x h)

theorem segmentContribs_inv (routes : List GRoute)
    (smd : List ((String × String) × MaxDelayInfo)) :
    ∀ e ∈ segmentContribs routes smd, e.2.1 ≠ [] ∧ e.2.1.length = e.2.2.length := by
  have hF : ∀ (acc : List ((String × String) × (List ℤ × List ℚ)))
      (pd : (String × String) × MaxDelayInfo),
      (∀ e ∈ acc, e.2.1 ≠ [] ∧ e.2.1.length = e.2.2.length) →
      ∀ e ∈ (find_route_segments_for_stations routes pd.1.1 pd.1.2).foldl (fun acc2 m =>
          (List.range' m.2.1 (m.2.2 - m.2.1)).foldl (fun acc3 i =>
            appendContrib acc3 (m.1.stops.getD i "", m.1.stops.getD (i + 1) "")
              pd.2.max_delay pd.2.average_delay) acc2) acc,
        e.2.1 ≠ [] ∧ e.2.1.length = e.2.2.length := by
    intro acc pd hacc
    refine foldl_preserve
      (fun acc : List ((String × String) × (List ℤ × List ℚ)) =>
        ∀ e ∈ acc, e.2.1 ≠ [] ∧ e.2.1.length = e.2.2.length) _ ?_ _ acc hacc
    intro acc2 m hacc2
    refine foldl_preserve
      (fun acc : List ((String × String) × (List ℤ × List ℚ)) =>
        ∀ e ∈ acc, e.2.1 ≠ [] ∧ e.2.1.length = e.2.2.length) _ ?_ _ acc2 hacc2
    intro acc3 i hacc3
    exact appendContrib_pres acc3 _ _ _ hacc3
  exact foldl_preserve
    (fun acc : List ((String × String) × (List ℤ × List ℚ)) =>
        ∀ e ∈ acc, e.2.1 ≠ [] ∧ e.2.1.length = e.2.2.length)
    _ hF smd [] (by simp)

/-- C7: for every segment key that received at least one contribution from
the covering loop (each covering match `(pattern, i_origin, i_dest)`
contributes its pair's `max_delay` and `average_delay` at every index
`i ∈ [i_origin, i_dest)`), the aggregated `max_delay` is the supremum of
the contributed max values (it is one of them and bounds them all), and the
aggregated `mean_delay` is their unweighted arithmetic mean (`n · mean =
sum` with `n ≠ 0` contributions). -/
theorem mav_C7 (routes : List GRoute) (smd : List ((String × String) × MaxDelayInfo))
    (k : String × String) (ms : List ℤ) (avs : List ℚ)
    (h : alookup k (segmentContribs routes smd) = some (ms, avs)) :
    ms ≠ [] ∧ ms.length = avs.length ∧
    alookup k (add_max_delay_routes_agg routes smd) = some (pyMax ms, qMean avs) ∧
    (pyMax ms ∈ ms ∧ ∀ x ∈ ms, x ≤ pyMax ms) ∧
    (avs.length : ℚ) * qMean avs = avs.sum := by
  have hmem := alookup_mem k (ms, avs) _ h
  obtain ⟨hne, hlen⟩ := segmentContribs_inv routes smd _ hmem
  refine ⟨hne, hlen, ?_, pyMax_sup ms hne, ?_⟩
  · rw [add_max_delay_routes_agg,
      alookup_map_val (fun v : List ℤ × List ℚ => (pyMax v.1, qMean v.2)) k, h]
    rfl
  · have havs : avs ≠ [] := by
      intro he
      rw [he] at hlen
      simp only [List.length_nil, List.length_eq_zero] at hlen
      exact hne hlen
    have hlen0 : (avs.length : ℚ) ≠ 0 := by
      simp only [ne_eq, Nat.cast_eq_zero, List.length_eq_zero]
      exact havs
    rw [qMean, mul_comm, div_mul_cancel₀ _ hlen0]

/-- C7 witness: one pattern `[A, X, B]` and one pair summary for `(A, B)`
with `max = 10`, `mean = 10`; the segment `(A, X)` receives one
contribution. -/
theorem mav_C7_witness :
    ([10] : List ℤ) ≠ [] ∧ ([10] : List ℤ).length = ([10] : List ℚ).length ∧
    alookup ("A", "X") (add_max_delay_routes_agg
        [GRoute.mk [GPattern.mk ["A", "X", "B"]]]
        [(("A", "B"), MaxDelayInfo.mk 10 10)])
      = some (pyMax [10], qMean [10]) ∧
    (pyMax [10] ∈ ([10] : List ℤ) ∧ ∀ x ∈ ([10] : List ℤ), x ≤ pyMax [10]) ∧
    ((([10] : List ℚ).length : ℚ) * qMean [10] = ([10] : List ℚ).sum) :=
  mav_C7 [GRoute.mk [GPattern.mk ["A", "X", "B"]]]
    [(("A", "B"), MaxDelayInfo.mk 10 10)] ("A", "X") [10] [10] (by decide)

end MavDashboard
